import Mathlib

/-!
Shallow embedding of the nnvm reverse-mode gradient pass
(`src/pass/gradient.cc`), together with proofs about it.

Nodes live in a store addressed by natural-number ids (modelling
`NodePtr` shared pointers; a fresh id per `Node::Create` models a fresh
allocation).  A `NodeEntry` mirrors the C++ struct `{NodePtr, index,
version}`, where `node = none` models a null `NodePtr` (the
default-initialized `NodeEntry{nullptr, 0, 0}` of a `GradEntry`, and the
state of a `NodeEntry` whose shared pointer has been moved from — the
C++ standard guarantees a moved-from `shared_ptr` is empty).

C++ behaviours modelled explicitly:
* `std::unordered_map::at` on a missing key throws; `operator[]` inserts
  a default-constructed value.
* `std::vector::operator[]` out of range is undefined behaviour; it is
  modelled as an `Except.error` tagged "UB".
* moving from a `NodeEntry` leaves `{nullptr, index, version}`; moving
  from a `std::vector` leaves it empty.  In particular
  `ret.outputs.emplace_back(std::move(entry.sum))` (line 128 of the
  source) leaves the slot's `sum` with a null node.
-/

set_option maxRecDepth 10000

namespace NNVM

/-- A reference to one output slot of a node: the C++ `NodeEntry`
`{NodePtr node; uint32_t index; uint32_t version;}`.  `node = none`
models a null `NodePtr`. -/
structure NodeEntry where
  node : Option Nat
  index : Nat
  version : Nat
deriving Repr, DecidableEq

/-- An operator application: the C++ `Node` record.  `op = none` models a
null `Op*`, i.e. a variable node (`Node::is_variable()`). -/
structure Node where
  op : Option String
  name : String
  inputs : List NodeEntry
  control_deps : List Nat
  num_outputs : Nat
deriving Repr, DecidableEq

/-- Generic association-list lookup (used for the node store, the
pending-gradient table, the mirror map and the ghost counters). -/
def alFind {κ α : Type} [DecidableEq κ] (m : List (κ × α)) (k : κ) : Option α :=
  match m with
  | [] => none
  | p :: rest => if p.1 = k then some p.2 else alFind rest k

/-- Generic association-list insert-or-replace. -/
def alSet {κ α : Type} [DecidableEq κ] (m : List (κ × α)) (k : κ) (v : α) : List (κ × α) :=
  match m with
  | [] => [(k, v)]
  | p :: rest => if p.1 = k then (k, v) :: rest else p :: alSet rest k v

/-- The arena of allocated nodes: id → record, plus the next fresh id.
Models the heap of `shared_ptr<Node>` allocations; new allocations are
prepended. -/
structure Store where
  nodes : List (Nat × Node)
  next : Nat
deriving Repr, DecidableEq

/-- Dereference a node id (a non-null `NodePtr`). -/
def Store.find (s : Store) (i : Nat) : Option Node :=
  alFind s.nodes i

/-- `Node::Create` followed by field initialization: allocates a fresh id
for the given record. -/
def Store.create (s : Store) (nd : Node) : Nat × Store :=
  (s.next, ⟨(s.next, nd) :: s.nodes, s.next + 1⟩)

/-- Modelled from the spec (§4.1 Topological Visitor; `DFSVisit` lives in
the repository's headers, not under `src/`): depth-first post-order visit
of one node — recurse into input entries in order, then control
dependencies, then emit the node.  Nodes already emitted are skipped, so
each ancestor appears exactly once, after all of its inputs.  `fuel`
bounds the recursion depth; callers pass enough for any acyclic store. -/
def dfsNode (s : Store) : Nat → Nat → List Nat → List Nat
  | 0, _, order => order
  | fuel + 1, id, order =>
    if order.contains id then order
    else
      match s.find id with
      | none => order
      | some nd =>
        let o1 := nd.inputs.foldl (fun acc e =>
          match e.node with
          | some j => dfsNode s fuel j acc
          | none => acc) order
        let o2 := nd.control_deps.foldl (fun acc j => dfsNode s fuel j acc) o1
        o2 ++ [id]

/-- Modelled from the spec (§4.1): `DFSVisit(ys, ...)` — deterministic
post-order DFS from the requested output entries, producing the
topological order used by the pass. -/
def DFSVisit (s : Store) (ys : List NodeEntry) : List Nat :=
  ys.foldl (fun acc e =>
    match e.node with
    | some j => dfsNode s (s.nodes.length + 1) j acc
    | none => acc) []

/-- One pending-gradient slot (the C++ `GradEntry`): the aggregated sum
(initially `{nullptr, 0, 0}`) and the not-yet-aggregated contributions. -/
structure GradEntry where
  sum : NodeEntry := ⟨none, 0, 0⟩
  grads : List NodeEntry := []
deriving Repr, DecidableEq

/-- The `output_grads` table: node id → one `GradEntry` per output slot. -/
abbrev OG := List (Nat × List GradEntry)

/-- Ghost instrumentation: how many times each (node id, output index)
slot has been passed to the aggregation function. -/
abbrev CountMap := List ((Nat × Nat) × Nat)

/-- Bump the ghost aggregation counter of one slot. -/
def cntBump (m : CountMap) (k : Nat × Nat) : CountMap :=
  alSet m k ((alFind m k).getD 0 + 1)

/-- Result of one aggregation call: the produced entry, the residual
contents of the contribution vector after the call (move semantics), and
the store extended with any nodes the aggregator created. -/
structure AggOut where
  result : NodeEntry
  residual : List NodeEntry
  store : Store
deriving Repr

/-- An aggregation strategy (the C++
`std::function<NodeEntry (std::vector<NodeEntry>&&)>`); the argument
vector is taken by rvalue reference, so its post-call residual is part of
the behaviour. -/
abbrev AggFun := List NodeEntry → Store → AggOut

/-- `DefaultAggregateGradient` (lines 18–31 of the source): one entry is
returned unchanged (`return std::move(v[0])` steals its node pointer,
leaving `{nullptr, index, version}` behind in the vector); an empty list
creates a fresh `__zero__` node; two or more entries become the inputs of
a fresh `__ewise_sum__` node (`std::move(v)` empties the vector). -/
def DefaultAggregateGradient (v : List NodeEntry) (s : Store) : AggOut :=
  match v with
  | [e] => ⟨e, [{ e with node := none }], s⟩
  | [] =>
    let c := s.create ⟨some "__zero__", "", [], [], 1⟩
    ⟨⟨some c.1, 0, 0⟩, [], c.2⟩
  | _ =>
    let c := s.create ⟨some "__ewise_sum__", "", v, [], 1⟩
    ⟨⟨some c.1, 0, 0⟩, [], c.2⟩

/-- An operator's registered `FGradient` function: takes the (possibly
mirrored) node id and the aggregated output gradients, returns one
gradient entry per input and may allocate nodes. -/
abbrev GradFun := Nat → List NodeEntry → Store → (List NodeEntry × Store)

/-- The `FGradient` registry (`Op::GetAttr<FGradient>("FGradient")`),
keyed by operator name. -/
abbrev Reg := String → Option GradFun

/-- The DFS visitor's side effect (lines 68–73): allocate one empty
pending-gradient slot per output of every visited node. -/
def initSlots (s : Store) (topo : List Nat) : OG :=
  topo.foldl (fun og id =>
    match s.find id with
    | some nd =>
      if (alFind og id).isSome then og
      else alSet og id (List.replicate nd.num_outputs {})
    | none => og) []

/-- Seed initialization (lines 76–78):
`output_grads[ys[i].node.get()][ys[i].index].grads = { ys_out_grad[i] }` —
an overwriting assignment of the slot's contribution list.  A missing
slot or an out-of-range index is the C++ `operator[]` out-of-bounds
undefined behaviour. -/
def seedInit : OG → List NodeEntry → List NodeEntry → Except String OG
  | og, [], _ => .ok og
  | _, _ :: _, [] => .error "UB: seed index out of range"
  | og, y :: ys, g :: gs =>
    match y.node with
    | none => .error "UB: null ys entry"
    | some yid =>
      match alFind og yid with
      | none => .error "UB: grad slot index out of range"
      | some slots =>
        if h : y.index < slots.length then
          seedInit (alSet og yid (slots.set y.index { slots.get ⟨y.index, h⟩ with grads := [g] })) ys gs
        else .error "UB: grad slot index out of range"

/-- Rewrite the input entries of a mirror copy through the mirror map
(lines 88–90); `mirror_map.at` throws on a missing key. -/
def mirrorInputs (mm : List (Nat × Nat)) : List NodeEntry → Except String (List NodeEntry)
  | [] => .ok []
  | e :: rest =>
    match e.node with
    | none => .error "throw: mirror_map.at"
    | some j =>
      match alFind mm j with
      | none => .error "throw: mirror_map.at"
      | some j2 =>
        match mirrorInputs mm rest with
        | .ok rest2 => .ok ({ e with node := some j2 } :: rest2)
        | .error m => .error m

/-- Rewrite the control dependencies of a mirror copy through the mirror
map (lines 91–93). -/
def mirrorDeps (mm : List (Nat × Nat)) : List Nat → Except String (List Nat)
  | [] => .ok []
  | j :: rest =>
    match alFind mm j with
    | none => .error "throw: mirror_map.at"
    | some j2 =>
      match mirrorDeps mm rest with
      | .ok rest2 => .ok (j2 :: rest2)
      | .error m => .error m

/-- The Mirror Planner (lines 82–98): walk the topological order; a node
the policy selects is copied (`*new_node = *n`), renamed with a
`"_mirror"` suffix and rewired through the map; otherwise the node maps
to itself. -/
def buildMirror (pred : Node → Bool) :
    List Nat → Store → List (Nat × Nat) → Except String (List (Nat × Nat) × Store)
  | [], st, mm => .ok (mm, st)
  | id :: rest, st, mm =>
    match st.find id with
    | none => .error "UB: node not in store"
    | some nd =>
      if pred nd then
        match mirrorInputs mm nd.inputs with
        | .error m => .error m
        | .ok inputs2 =>
          match mirrorDeps mm nd.control_deps with
          | .error m => .error m
          | .ok deps2 =>
            let c := st.create
              { nd with name := nd.name ++ "_mirror", inputs := inputs2, control_deps := deps2 }
            buildMirror pred rest c.2 (alSet mm id c.1)
      else buildMirror pred rest st (alSet mm id id)

/-- Traversal-local mutable state: the node arena, the pending-gradient
table, and two ghost fields — per-slot aggregation counts and the node
ids handed to gradient functions. -/
structure PassState where
  store : Store
  og : OG
  count : CountMap
  calls : List Nat
deriving Repr, DecidableEq

/-- Aggregation of every output slot of the current node, in slot order
(lines 107–111): `e.sum = agg_fun(std::move(e.grads))` stores the sum and
leaves the move residual in `grads`; the sums are collected into
`out_agg_grads`. -/
structure AggSlotsOut where
  slots : List GradEntry
  sums : List NodeEntry
  store : Store
  count : CountMap
deriving Repr

def aggSlots (agg : AggFun) (id : Nat) :
    List GradEntry → Nat → Store → CountMap → AggSlotsOut
  | [], _, st, cnt => ⟨[], [], st, cnt⟩
  | e :: rest, k, st, cnt =>
    let a := agg e.grads st
    let tail := aggSlots agg id rest (k + 1) a.store (cntBump cnt (id, k))
    ⟨⟨a.result, a.residual⟩ :: tail.slots, a.result :: tail.sums, tail.store, tail.count⟩

/-- One scatter step (line 116):
`output_grads[it->node.get()][it->index].grads.emplace_back(...)` —
`operator[]` on the map inserts an empty slot vector when absent, and an
out-of-range slot index is undefined behaviour; otherwise the gradient is
appended to the slot's contribution list. -/
def scatterOne (og : OG) (e : NodeEntry) (g : NodeEntry) : Except String OG :=
  match e.node with
  | none => .error "UB: null input entry"
  | some nid =>
    let slots := (alFind og nid).getD []
    if h : e.index < slots.length then
      let entry := slots.get ⟨e.index, h⟩
      .ok (alSet og nid (slots.set e.index { entry with grads := entry.grads ++ [g] }))
    else .error "UB: grad slot index out of range"

/-- The scatter loop (lines 114–117): the input iterator drives the loop,
the gradient iterator is advanced in lockstep with no bounds check — a
too-short gradient list dereferences past the end (undefined behaviour),
a too-long one has its surplus silently ignored. -/
def scatter : OG → List NodeEntry → List NodeEntry → Except String OG
  | og, [], _ => .ok og
  | _, _ :: _, [] => .error "UB: gradient iterator past the end"
  | og, e :: es, g :: gs =>
    match scatterOne og e g with
    | .ok og2 => scatter og2 es gs
    | .error m => .error m

/-- One step of the Backward Traversal Engine (lines 104–118) for the
current node of the reverse topological order: skip variables, aggregate
all output slots, dispatch to the registered gradient function (with the
mirrored substitute when a mirror map exists), scatter the returned
gradients to the original node's input entries. -/
def backStep (reg : Reg) (agg : AggFun) (mm : List (Nat × Nat))
    (ps : PassState) (id : Nat) : Except String PassState :=
  match ps.store.find id with
  | none => .error "UB: node not in store"
  | some nd =>
    match nd.op with
    | none => .ok ps
    | some opName =>
      match alFind ps.og id with
      | none => .error "throw: output_grads.at"
      | some slots =>
        let a := aggSlots agg id slots 0 ps.store ps.count
        let og1 := alSet ps.og id a.slots
        match reg opName with
        | none => .error "CHECK: FGradient is not registered"
        | some f =>
          match (if mm.isEmpty then some id else alFind mm id) with
          | none => .error "throw: mirror_map.at"
          | some nodeArg =>
            let r := f nodeArg a.sums a.store
            match scatter og1 nd.inputs r.1 with
            | .ok og2 => .ok ⟨r.2, og2, a.count, ps.calls ++ [nodeArg]⟩
            | .error m => .error m

/-- The Output Assembler (lines 120–129): for each requested entry fetch
its slot (`operator[]` inserts an empty slot vector for a never-visited
node, and indexing it is then out-of-bounds undefined behaviour),
aggregate lazily when the sum's node is null, and move the sum into the
output list — the move leaves the slot's `sum` with a null node. -/
def assemble (agg : AggFun) :
    List NodeEntry → PassState → List NodeEntry → Except String (List NodeEntry × PassState)
  | [], ps, outs => .ok (outs, ps)
  | e :: es, ps, outs =>
    match e.node with
    | none => .error "UB: null requested entry"
    | some nid =>
      match ((alFind ps.og nid).getD []).get? e.index with
      | none => .error "UB: grad slot index out of range"
      | some entry =>
        let step :=
          if entry.sum.node.isNone then
            let a := agg entry.grads ps.store
            (GradEntry.mk a.result a.residual, a.store, cntBump ps.count (nid, e.index))
          else (entry, ps.store, ps.count)
        let entryAfter := { step.1 with sum := { step.1.sum with node := none } }
        assemble agg es
          ⟨step.2.1,
           alSet ps.og nid (((alFind ps.og nid).getD []).set e.index entryAfter),
           step.2.2, ps.calls⟩
          (outs ++ [step.1.sum])

/-- The three required graph attributes (`grad_ys`, `grad_ys_out_grad`,
`grad_xs`), modelled as an explicit configuration record. -/
structure GradConfig where
  ys : List NodeEntry
  ys_out_grad : List NodeEntry
  xs : List NodeEntry
deriving Repr, DecidableEq

/-- The graph returned by the pass together with the final traversal
state (the arena interprets the output entries; `retAttrs` records which
attributes the pass populated on the returned graph — none).  `count` and
`calls` are ghost observations. -/
structure GradientResult where
  outputs : List NodeEntry
  retAttrs : List String
  store : Store
  og : OG
  count : CountMap
  calls : List Nat
deriving Repr, DecidableEq

/-- The `Gradient` pass body (lines 39–131): check the seed/output length
precondition, topologically sort from `ys` allocating pending slots, seed
the `ys` slots, optionally build the mirror map, run the backward
traversal in strict reverse topological order, and assemble one output
per requested entry of `xs`.  `aggOpt`/`mirrorOpt` model the optional
`grad_aggregate_fun` and `grad_mirror_fun` attributes. -/
def Gradient (reg : Reg) (cfg : GradConfig) (aggOpt : Option AggFun)
    (mirrorOpt : Option (Node → Bool)) (src : Store) : Except String GradientResult :=
  let agg := aggOpt.getD DefaultAggregateGradient
  let topo := DFSVisit src cfg.ys
  let og0 := initSlots src topo
  if cfg.ys.length = cfg.ys_out_grad.length then
    match seedInit og0 cfg.ys cfg.ys_out_grad with
    | .error m => .error m
    | .ok og1 =>
      match (match mirrorOpt with
             | none => Except.ok (([] : List (Nat × Nat)), src)
             | some pred => buildMirror pred topo src []) with
      | .error m => .error m
      | .ok (mm, st0) =>
        match topo.reverse.foldlM (backStep reg agg mm) ⟨st0, og1, [], []⟩ with
        | .error m => .error m
        | .ok ps1 =>
          match assemble agg cfg.xs ps1 [] with
          | .error m => .error m
          | .ok (outs, ps2) => .ok ⟨outs, [], ps2.store, ps2.og, ps2.count, ps2.calls⟩
  else .error "CHECK: ys.size() == ys_out_grad.size()"

/-- Projection: the output list of a completed run. -/
def resOutputs (r : Except String GradientResult) : Option (List NodeEntry) :=
  match r with
  | .ok x => some x.outputs
  | .error _ => none

/-- Projection: dereference a node id in a completed run's arena. -/
def resNode (r : Except String GradientResult) (i : Nat) : Option Node :=
  match r with
  | .ok x => x.store.find i
  | .error _ => none

/-- Projection: the ghost aggregation count of one slot after a run. -/
def resCount (r : Except String GradientResult) (k : Nat × Nat) : Option Nat :=
  match r with
  | .ok x => some ((alFind x.count k).getD 0)
  | .error _ => none

/-- Projection: the attributes the pass populated on the returned graph. -/
def resAttrs (r : Except String GradientResult) : Option (List String) :=
  match r with
  | .ok x => some x.retAttrs
  | .error _ => none

/-! ### Association-list lemmas -/

theorem alFind_alSet_self {κ α : Type} [DecidableEq κ] (m : List (κ × α)) (k : κ) (v : α) :
    alFind (alSet m k v) k = some v := by
  induction m with
  | nil => simp [alFind, alSet]
  | cons p rest ih =>
    by_cases h : p.1 = k
    · simp [alFind, alSet, h]
    · simp [alFind, alSet, h, ih]

theorem alFind_alSet_ne {κ α : Type} [DecidableEq κ] (m : List (κ × α)) (k k' : κ) (v : α)
    (h : k ≠ k') : alFind (alSet m k v) k' = alFind m k' := by
  induction m with
  | nil => simp [alFind, alSet, h]
  | cons p rest ih =>
    by_cases hp : p.1 = k
    · rw [alSet, if_pos hp, alFind, alFind]
      have : ¬(k = k') := h
      simp [this, hp]
    · rw [alSet, if_neg hp, alFind, alFind]
      by_cases hp' : p.1 = k'
      · simp [hp']
      · simp [hp', ih]

theorem alFind_some_mem {κ α : Type} [DecidableEq κ] (m : List (κ × α)) (k : κ) (v : α)
    (h : alFind m k = some v) : (k, v) ∈ m := by
  induction m with
  | nil => simp [alFind] at h
  | cons p rest ih =>
    obtain ⟨a, b⟩ := p
    by_cases hp : a = k
    · simp [alFind, hp] at h
      subst hp
      subst h
      exact List.mem_cons_self _ _
    · simp [alFind, hp] at h
      exact List.mem_cons_of_mem _ (ih h)

theorem alSet_forall_keys {κ α : Type} [DecidableEq κ] (m : List (κ × α)) (k : κ) (v : α)
    (P : κ → Prop) (hm : ∀ p ∈ m, P p.1) (hk : P k) : ∀ p ∈ alSet m k v, P p.1 := by
  induction m with
  | nil =>
    intro p hp
    simp [alSet] at hp
    simp [hp, hk]
  | cons q rest ih =>
    intro p hp
    by_cases hq : q.1 = k
    · simp [alSet, hq] at hp
      rcases hp with hp | hp
      · simp [hp, hk]
      · exact hm p (List.mem_cons_of_mem _ hp)
    · simp [alSet, hq] at hp
      rcases hp with hp | hp
      · exact hm p (by simp [hp])
      · exact ih (fun q hq => hm q (List.mem_cons_of_mem _ hq)) p hp

/-! ### C1: the default aggregator -/

/-- **C1.** `DefaultAggregateGradient`: an empty list yields a reference
(output index 0) to a freshly created `__zero__` node — a real, non-null
entry; a singleton list is returned unchanged with the store untouched
(no wrapper node); two or more entries yield a reference to the sole
output of a freshly created `__ewise_sum__` node whose ordered input
list is exactly the given list. -/
theorem c1_default_aggregate_cases (v : List NodeEntry) (s : Store) :
    (v = [] → DefaultAggregateGradient v s =
      ⟨⟨some s.next, 0, 0⟩, [],
        ⟨(s.next, ⟨some "__zero__", "", [], [], 1⟩) :: s.nodes, s.next + 1⟩⟩) ∧
    (∀ e, v = [e] → (DefaultAggregateGradient v s).result = e ∧
      (DefaultAggregateGradient v s).store = s) ∧
    (2 ≤ v.length → DefaultAggregateGradient v s =
      ⟨⟨some s.next, 0, 0⟩, [],
        ⟨(s.next, ⟨some "__ewise_sum__", "", v, [], 1⟩) :: s.nodes, s.next + 1⟩⟩) := by
  refine ⟨fun hv => ?_, fun e hv => ?_, fun hv => ?_⟩
  · subst hv; rfl
  · subst hv; exact ⟨rfl, rfl⟩
  · rcases v with _ | ⟨a, _ | ⟨b, t⟩⟩
    · simp at hv
    · simp at hv
    · rfl

/-- Witness for C1: the three cases of `c1_default_aggregate_cases`
evaluated at concrete inputs. -/
theorem c1_default_aggregate_cases_witness :
    (DefaultAggregateGradient [] ⟨[], 0⟩ =
      ⟨⟨some 0, 0, 0⟩, [], ⟨[(0, ⟨some "__zero__", "", [], [], 1⟩)], 1⟩⟩) ∧
    ((DefaultAggregateGradient [⟨some 9, 1, 0⟩] ⟨[], 0⟩).result = ⟨some 9, 1, 0⟩ ∧
      (DefaultAggregateGradient [⟨some 9, 1, 0⟩] ⟨[], 0⟩).store = ⟨[], 0⟩) ∧
    (DefaultAggregateGradient [⟨some 9, 1, 0⟩, ⟨some 8, 0, 0⟩] ⟨[], 0⟩ =
      ⟨⟨some 0, 0, 0⟩, [],
        ⟨[(0, ⟨some "__ewise_sum__", "", [⟨some 9, 1, 0⟩, ⟨some 8, 0, 0⟩], [], 1⟩)], 1⟩⟩) :=
  ⟨(c1_default_aggregate_cases [] ⟨[], 0⟩).1 rfl,
   (c1_default_aggregate_cases [⟨some 9, 1, 0⟩] ⟨[], 0⟩).2.1 ⟨some 9, 1, 0⟩ rfl,
   (c1_default_aggregate_cases [⟨some 9, 1, 0⟩, ⟨some 8, 0, 0⟩] ⟨[], 0⟩).2.2 (by decide)⟩

/-! ### Concrete graphs used by the claims -/

/-- A variable (leaf) node: null operator. -/
def varNode : Node := ⟨none, "", [], [], 1⟩

/-- A gradient function that passes the first aggregated output gradient
through to the (single) input, creating no nodes. -/
def passThrough1 : GradFun := fun _ outg s => ([outg.headD ⟨none, 0, 0⟩], s)

/-- A gradient function that wraps the aggregated output gradients in a
fresh node of the given operator and returns a reference to it. -/
def mkUnary (opName : String) : GradFun := fun _ outg s =>
  let c := s.create ⟨some opName, "", outg, [], 1⟩
  ([⟨some c.1, 0, 0⟩], c.2)

/-- Diamond graph: node 0 is the variable `x`, nodes 1 and 2 apply `f`
and `g` to it, node 3 applies `h` to both, node 4 is the seed. -/
def diamondStore : Store :=
  ⟨[(0, varNode),
    (1, ⟨some "f", "", [⟨some 0, 0, 0⟩], [], 1⟩),
    (2, ⟨some "g", "", [⟨some 0, 0, 0⟩], [], 1⟩),
    (3, ⟨some "h", "", [⟨some 1, 0, 0⟩, ⟨some 2, 0, 0⟩], [], 1⟩),
    (4, varNode)], 5⟩

/-- Registry for the diamond graph: `h` hands its output gradient to both
inputs unchanged; `f` and `g` wrap theirs in fresh `df` / `dg` nodes. -/
def diamondReg : Reg := fun o =>
  if o = "h" then some (fun _ outg s => ([outg.headD ⟨none, 0, 0⟩, outg.headD ⟨none, 0, 0⟩], s))
  else if o = "f" then some (mkUnary "df")
  else if o = "g" then some (mkUnary "dg")
  else none

/-- The diamond run: d y/d x with seed node 4. -/
def diamondRun : Except String GradientResult :=
  Gradient diamondReg ⟨[⟨some 3, 0, 0⟩], [⟨some 4, 0, 0⟩], [⟨some 0, 0, 0⟩]⟩ none none diamondStore

/-! ### C2: scatter accumulates; the diamond yields a two-input sum -/

/-- **C2.** First conjunct: one scatter step (line 116 of the source)
appends the returned gradient expression to the pending slot of the
targeted (node, output-index) — the slot's list becomes the old list with
the new expression appended, never an overwrite.  Remaining conjuncts:
on the diamond graph (`x` feeds `f` and `g`, both feed the requested
output), the gradient produced for `x` is a fresh `__ewise_sum__` node
whose inputs are exactly the contribution through `g` (node 5, visited
first in the backward order) and the contribution through `f` (node 6),
in consumer-visitation order. -/
theorem c2_scatter_accumulates_diamond_sum :
    (∀ (og : OG) (nid idx ver : Nat) (slots : List GradEntry) (entry : GradEntry)
      (g : NodeEntry),
      alFind og nid = some slots →
      slots.get? idx = some entry →
      scatterOne og ⟨some nid, idx, ver⟩ g =
        .ok (alSet og nid (slots.set idx { entry with grads := entry.grads ++ [g] }))) ∧
    resOutputs diamondRun = some [⟨some 7, 0, 0⟩] ∧
    resNode diamondRun 7 =
      some ⟨some "__ewise_sum__", "", [⟨some 5, 0, 0⟩, ⟨some 6, 0, 0⟩], [], 1⟩ ∧
    resNode diamondRun 5 = some ⟨some "dg", "", [⟨some 4, 0, 0⟩], [], 1⟩ ∧
    resNode diamondRun 6 = some ⟨some "df", "", [⟨some 4, 0, 0⟩], [], 1⟩ := by
  refine ⟨?_, by decide, by decide, by decide, by decide⟩
  intro og nid idx ver slots entry g hfind hget
  have hlt : idx < slots.length := List.get?_eq_some.mp hget |>.choose
  have hentry : slots.get ⟨idx, hlt⟩ = entry := by
    have := List.get?_eq_some.mp hget
    rcases this with ⟨h1, h2⟩
    rw [← h2]
  rw [List.get_eq_getElem] at hentry
  simp [scatterOne, hfind, hlt, hentry]

/-- Witness for C2: the scatter-step conjunct evaluated on a concrete
table, discharging both hypotheses. -/
theorem c2_scatter_accumulates_diamond_sum_witness :
    scatterOne [(0, [⟨⟨none, 0, 0⟩, [⟨some 9, 0, 0⟩]⟩])] ⟨some 0, 0, 7⟩ ⟨some 8, 0, 0⟩ =
      .ok [(0, [⟨⟨none, 0, 0⟩, [⟨some 9, 0, 0⟩, ⟨some 8, 0, 0⟩]⟩])] := by
  have h := c2_scatter_accumulates_diamond_sum.1
    [(0, [⟨⟨none, 0, 0⟩, [⟨some 9, 0, 0⟩]⟩])] 0 0 7
    [⟨⟨none, 0, 0⟩, [⟨some 9, 0, 0⟩]⟩] ⟨⟨none, 0, 0⟩, [⟨some 9, 0, 0⟩]⟩ ⟨some 8, 0, 0⟩
    (by decide) (by decide)
  exact h

/-! ### C3: the at-most-once aggregation invariant is broken by aliased
requests -/

/-- Chain graph for C3: node 0 is the variable `x`, node 1 applies `f1`
to it, node 2 is the seed. -/
def chainStore : Store :=
  ⟨[(0, varNode), (1, ⟨some "f1", "", [⟨some 0, 0, 0⟩], [], 1⟩), (2, varNode)], 3⟩

def chainReg : Reg := fun o => if o = "f1" then some passThrough1 else none

/-- The chain run with the slot of `x` requested twice in `grad_xs`. -/
def chainAliasRun : Except String GradientResult :=
  Gradient chainReg ⟨[⟨some 1, 0, 0⟩], [⟨some 2, 0, 0⟩], [⟨some 0, 0, 0⟩, ⟨some 0, 0, 0⟩]⟩
    none none chainStore

/-- **C3 fails on the code.**  When the same slot is requested twice in
`grad_xs`, the Output Assembler aggregates it twice: emitting the first
occurrence moves the slot's `sum` out (`std::move(entry.sum)`, line 128),
leaving its node pointer null, so the second occurrence re-enters the
aggregation branch.  On the chain graph with `grad_xs = [x, x]` the ghost
counter records two aggregations of slot `(0, 0)`, and the re-aggregation
of the moved-from contribution list yields a null entry instead of the
gradient. -/
theorem c3_aliased_request_reaggregates :
    resCount chainAliasRun (0, 0) = some 2 ∧
    resOutputs chainAliasRun = some [⟨some 2, 0, 0⟩, ⟨none, 0, 0⟩] := by
  exact ⟨by decide, by decide⟩

/-! ### C4: an unreached requested input is undefined behaviour, not a
zero node -/

/-- Graph for C4: node 1 applies `f4` to variable 0; variable 2 (`w`) is
not an ancestor of the requested output; node 3 is the seed. -/
def unreachedStore : Store :=
  ⟨[(0, varNode), (1, ⟨some "f4", "", [⟨some 0, 0, 0⟩], [], 1⟩), (2, varNode), (3, varNode)], 4⟩

def unreachedReg : Reg := fun o => if o = "f4" then some passThrough1 else none

/-- The run requesting the gradient w.r.t. the unreached variable `w`. -/
def unreachedRun : Except String GradientResult :=
  Gradient unreachedReg ⟨[⟨some 1, 0, 0⟩], [⟨some 3, 0, 0⟩], [⟨some 2, 0, 0⟩]⟩
    none none unreachedStore

/-- **C4 fails on the code.**  A requested entry whose node was never
visited has no allocated pending-gradient slot; line 123
(`output_grads[e.node.get()][e.index]`) then default-constructs an empty
slot vector via `operator[]` and indexes it out of bounds — undefined
behaviour, modelled as an error — instead of producing the canonical zero
node the claim (and spec §8) promise. -/
theorem c4_unreached_input_is_oob :
    unreachedRun = .error "UB: grad slot index out of range" := by
  rfl

/-! ### C5: no arity check on the gradient function's result -/

/-- Graph for C5: node 1 applies `f5` (arity 1) to variable 0; node 2 is
the seed.  The registered gradient function returns two entries. -/
def arityStore : Store :=
  ⟨[(0, varNode), (1, ⟨some "f5", "", [⟨some 0, 0, 0⟩], [], 1⟩), (2, varNode)], 3⟩

def arityReg : Reg := fun o =>
  if o = "f5" then
    some (fun _ outg s => ([outg.headD ⟨none, 0, 0⟩, outg.headD ⟨none, 0, 0⟩], s))
  else none

def arityRun : Except String GradientResult :=
  Gradient arityReg ⟨[⟨some 1, 0, 0⟩], [⟨some 2, 0, 0⟩], [⟨some 0, 0, 0⟩]⟩ none none arityStore

/-- **C5 fails on the code.**  The scatter loop (lines 114–117) advances
the gradient iterator in lockstep with the input iterator and never
compares lengths: a gradient function returning two entries for an
arity-1 node completes the pass normally, the surplus entry silently
dropped — no fatal contract-violation error is raised.  (A too-short
list dereferences past the end: undefined behaviour, equally not a
diagnosed contract error.) -/
theorem c5_arity_mismatch_not_checked :
    resOutputs arityRun = some [⟨some 2, 0, 0⟩] ∧
    resCount arityRun (0, 0) = some 1 := by
  exact ⟨by decide, by decide⟩

/-! ### C6: output length and order hold, but an aliased slot's later
position does not receive the aggregated gradient -/

/-- Graph for C6: node 1 applies `f6` to variable 0; the gradient
function wraps its output gradient in a fresh `d6` node; node 2 is the
seed. -/
def aliasStore : Store :=
  ⟨[(0, varNode), (1, ⟨some "f6", "", [⟨some 0, 0, 0⟩], [], 1⟩), (2, varNode)], 3⟩

def aliasReg : Reg := fun o => if o = "f6" then some (mkUnary "d6") else none

/-- The run with `grad_xs = [x, x]`: both positions alias the slot of
`x`. -/
def aliasRun : Except String GradientResult :=
  Gradient aliasReg ⟨[⟨some 1, 0, 0⟩], [⟨some 2, 0, 0⟩], [⟨some 0, 0, 0⟩, ⟨some 0, 0, 0⟩]⟩
    none none aliasStore

/-- **C6 fails on the code.**  The returned output list does keep the
length and order of `grad_xs` (two entries, first the gradient `d6` node
3), and no attributes are populated — but the aliasing clause is false:
the second requested position receives a null entry (the re-aggregation
of the slot whose `sum` was moved out and whose contribution list was
emptied when position 0 was emitted), not the aggregated gradient. -/
theorem c6_alias_second_position_null :
    resOutputs aliasRun = some [⟨some 3, 0, 0⟩, ⟨none, 0, 0⟩] ∧
    resNode aliasRun 3 = some ⟨some "d6", "", [⟨some 2, 0, 0⟩], [], 1⟩ ∧
    resAttrs aliasRun = some [] := by
  exact ⟨by decide, by decide, by decide⟩

/-! ### C9: seed initialization overwrites duplicated entries -/

/-- The pending-gradient slot stored for output `idx` of node `nid`. -/
def slotAt (og : OG) (nid idx : Nat) : Option GradEntry :=
  (alFind og nid).bind (fun l => l.get? idx)

/-- If no seed in `ys` targets slot `(nid, idx)`, seed initialization
leaves that slot untouched. -/
theorem seedInit_preserve (ys : List NodeEntry) :
    ∀ (gs : List NodeEntry) (og og' : OG) (nid idx : Nat),
    seedInit og ys gs = .ok og' →
    (∀ y ∈ ys, ¬(y.node = some nid ∧ y.index = idx)) →
    slotAt og' nid idx = slotAt og nid idx := by
  induction ys with
  | nil =>
    intro gs og og' nid idx hrun _
    cases gs <;> simp [seedInit] at hrun <;> simp [hrun]
  | cons y ys ih =>
    intro gs og og' nid idx hrun hmiss
    cases gs with
    | nil => simp [seedInit] at hrun
    | cons g gs =>
      cases hn : y.node with
      | none =>
        simp only [seedInit, hn] at hrun
        exact Except.noConfusion hrun
      | some yid =>
        simp only [seedInit, hn] at hrun
        cases hfind : alFind og yid with
        | none =>
          simp only [hfind] at hrun
          exact Except.noConfusion hrun
        | some slots =>
          simp only [hfind] at hrun
          by_cases hidx : y.index < slots.length
          · rw [dif_pos hidx] at hrun
            have step := ih gs _ og' nid idx hrun
              (fun y' hy' => hmiss y' (List.mem_cons_of_mem _ hy'))
            rw [step]
            by_cases hkey : yid = nid
            · subst hkey
              have hne : y.index ≠ idx := by
                intro hEq
                exact hmiss y (List.mem_cons_self _ _) ⟨hn, hEq⟩
              simp [slotAt, alFind_alSet_self, hfind, List.getElem?_set_ne hne]
            · simp [slotAt, alFind_alSet_ne _ _ _ _ hkey]
          · rw [dif_neg hidx] at hrun
            exact Except.noConfusion hrun

/-- Helper for C9: after a successful seed initialization, a slot whose
last targeting position in `ys` is `j` holds exactly the seed of
position `j`. -/
theorem seedInit_last_set (ys : List NodeEntry) :
    ∀ (gs : List NodeEntry) (og og' : OG) (j : Nat) (y g : NodeEntry) (nid : Nat),
    seedInit og ys gs = .ok og' →
    ys.get? j = some y → gs.get? j = some g → y.node = some nid →
    (∀ k y', j < k → ys.get? k = some y' → ¬(y'.node = some nid ∧ y'.index = y.index)) →
    ∃ e, slotAt og' nid y.index = some e ∧ e.grads = [g] := by
  induction ys with
  | nil =>
    intro gs og og' j y g nid _ hy _ _ _
    simp at hy
  | cons y0 ys ih =>
    intro gs og og' j y g nid hrun hy hg hn hlast
    cases gs with
    | nil => simp [seedInit] at hrun
    | cons g0 gs =>
      cases hn0 : y0.node with
      | none =>
        simp only [seedInit, hn0] at hrun
        exact Except.noConfusion hrun
      | some yid =>
        simp only [seedInit, hn0] at hrun
        cases hfind : alFind og yid with
        | none =>
          simp only [hfind] at hrun
          exact Except.noConfusion hrun
        | some slots =>
          simp only [hfind] at hrun
          by_cases hidx : y0.index < slots.length
          · rw [dif_pos hidx] at hrun
            cases j with
            | zero =>
              rw [List.get?_cons_zero] at hy hg
              have hyy : y0 = y := Option.some.inj hy
              have hgg : g0 = g := Option.some.inj hg
              have hyid : yid = nid := by
                rw [hyy, hn] at hn0
                exact (Option.some.inj hn0).symm
              subst hyid
              have hpres := seedInit_preserve ys gs _ og' yid y.index hrun
                (fun y' hy' => by
                  obtain ⟨k, hk⟩ := List.get?_of_mem hy'
                  exact hlast (k + 1) y' (Nat.succ_pos _)
                    (by rw [List.get?_cons_succ]; exact hk))
              rw [hpres]
              rw [← hyy, ← hgg]
              refine ⟨{ slots.get ⟨y0.index, hidx⟩ with grads := [g0] }, ?_, rfl⟩
              simp [slotAt, alFind_alSet_self, List.getElem?_set_eq_of_lt _ hidx]
            | succ j' =>
              rw [List.get?_cons_succ] at hy hg
              exact ih gs _ og' j' y g nid hrun hy hg hn
                (fun k y' hk hky' => hlast (k + 1) y' (Nat.succ_lt_succ hk)
                  (by rw [List.get?_cons_succ]; exact hky'))
          · rw [dif_neg hidx] at hrun
            exact Except.noConfusion hrun

/-- **C9.**  Seed initialization (lines 76–78) assigns
`slot.grads = { ys_out_grad[i] }` — an overwrite, not an accumulation.
If the same (node, output-index) entry occurs at positions `i < j` of
`grad_ys` and `j` is its last occurrence, then after initialization the
slot holds exactly the one seed of position `j`; every earlier
positional seed for that entry has been discarded. -/
theorem c9_seed_overwrites_duplicates (ys gs : List NodeEntry) (og og' : OG)
    (i j : Nat) (y y' g : NodeEntry) (nid : Nat)
    (hrun : seedInit og ys gs = .ok og')
    (hy : ys.get? j = some y) (hg : gs.get? j = some g) (hn : y.node = some nid)
    (hij : i < j) (hy' : ys.get? i = some y')
    (hdup : y'.node = some nid ∧ y'.index = y.index)
    (hlast : ∀ k z, j < k → ys.get? k = some z →
      ¬(z.node = some nid ∧ z.index = y.index)) :
    ∃ e, slotAt og' nid y.index = some e ∧ e.grads = [g] :=
  seedInit_last_set ys gs og og' j y g nid hrun hy hg hn hlast

/-- Witness for C9: `grad_ys = [(7,0), (7,0)]` with seeds `s1, s2` — the
slot of node 7 ends up holding exactly the second seed. -/
theorem c9_seed_overwrites_duplicates_witness :
    ∃ e, slotAt
      (match seedInit [(7, [({} : GradEntry)])]
        [⟨some 7, 0, 0⟩, ⟨some 7, 0, 0⟩] [⟨some 1, 0, 0⟩, ⟨some 2, 0, 0⟩] with
       | .ok og => og
       | .error _ => []) 7 0 = some e ∧ e.grads = [⟨some 2, 0, 0⟩] := by
  have h := c9_seed_overwrites_duplicates [⟨some 7, 0, 0⟩, ⟨some 7, 0, 0⟩]
    [⟨some 1, 0, 0⟩, ⟨some 2, 0, 0⟩] [(7, [({} : GradEntry)])]
    [(7, [⟨⟨none, 0, 0⟩, [⟨some 2, 0, 0⟩]⟩])] 0 1 ⟨some 7, 0, 0⟩ ⟨some 7, 0, 0⟩
    ⟨some 2, 0, 0⟩ 7 rfl (by decide) (by decide) (by decide) (by decide) (by decide)
    ⟨by decide, by decide⟩
    (fun k z hk hkz => by
      have h2 : 2 ≤ k := hk
      rw [List.get?_eq_none.mpr (by simpa using h2)] at hkz
      exact Option.noConfusion hkz)
  simpa using h

/-! ### C7: an always-false mirror policy is the same as no mirror
policy -/

/-- A fold that preserves a predicate on accumulated ids preserves it
over a whole list. -/
theorem foldl_mem_preserve {α : Type} (P : Nat → Prop) (f : List Nat → α → List Nat)
    (hf : ∀ acc b, (∀ x ∈ acc, P x) → ∀ x ∈ f acc b, P x) :
    ∀ (l : List α) (acc : List Nat), (∀ x ∈ acc, P x) → ∀ x ∈ l.foldl f acc, P x := by
  intro l
  induction l with
  | nil => intro acc h x hx; exact h x hx
  | cons b rest ih => intro acc h x hx; exact ih (f acc b) (hf acc b h) x hx

/-- Every id the DFS emits is the id of a stored node. -/
theorem dfsNode_mem_found (s : Store) :
    ∀ (fuel id : Nat) (order : List Nat),
    (∀ x ∈ order, (s.find x).isSome) →
    ∀ x ∈ dfsNode s fuel id order, (s.find x).isSome := by
  intro fuel
  induction fuel with
  | zero => intro id order h x hx; exact h x hx
  | succ fuel ih =>
    intro id order h x hx
    rw [dfsNode] at hx
    by_cases hc : order.contains id
    · rw [if_pos hc] at hx; exact h x hx
    · rw [if_neg hc] at hx
      cases hfind : s.find id with
      | none => rw [hfind] at hx; exact h x hx
      | some nd =>
        rw [hfind] at hx
        rcases List.mem_append.mp hx with hx2 | hx2
        · have h1 : ∀ y ∈ nd.inputs.foldl (fun acc e =>
              match e.node with
              | some j => dfsNode s fuel j acc
              | none => acc) order, (s.find y).isSome = true := by
            refine foldl_mem_preserve (fun x => (s.find x).isSome = true) _ ?_ nd.inputs order h
            intro acc e hacc y hy
            cases he : e.node with
            | none => rw [he] at hy; exact hacc y hy
            | some j => rw [he] at hy; exact ih j acc hacc y hy
          exact foldl_mem_preserve (fun x => (s.find x).isSome = true)
            (fun acc j => dfsNode s fuel j acc)
            (fun acc j hacc => ih j acc hacc) nd.control_deps _ h1 x hx2
        · have hxid : x = id := by simpa using hx2
          subst hxid
          simp [hfind]

/-- Every id in the topological order is the id of a stored node. -/
theorem DFSVisit_found (s : Store) (ys : List NodeEntry) :
    ∀ x ∈ DFSVisit s ys, (s.find x).isSome := by
  rw [DFSVisit]
  refine foldl_mem_preserve _ _ ?_ ys [] (by simp)
  intro acc e hacc x hx
  cases he : e.node with
  | none => rw [he] at hx; exact hacc x hx
  | some j => rw [he] at hx; exact dfsNode_mem_found s _ j acc hacc x hx

/-- Looking up any listed id in the identity mirror map yields the id
itself. -/
theorem alFind_idMap (l : List Nat) :
    ∀ (mm : List (Nat × Nat)) (id : Nat), id ∈ l ∨ alFind mm id = some id →
    alFind (l.foldl (fun m n => alSet m n n) mm) id = some id := by
  induction l with
  | nil =>
    intro mm id h
    rcases h with h | h
    · simp at h
    · exact h
  | cons n rest ih =>
    intro mm id h
    rw [List.foldl_cons]
    apply ih
    rcases h with h | h
    · rcases List.mem_cons.mp h with rfl | h2
      · right; exact alFind_alSet_self mm id id
      · left; exact h2
    · by_cases hn : n = id
      · subst hn; right; exact alFind_alSet_self mm n n
      · right; rw [alFind_alSet_ne _ _ _ _ hn]; exact h

/-- The Mirror Planner with an always-false policy creates no nodes and
maps every node of the order to itself. -/
theorem buildMirror_false (l : List Nat) :
    ∀ (st : Store) (mm : List (Nat × Nat)),
    (∀ id ∈ l, (st.find id).isSome) →
    buildMirror (fun _ => false) l st mm =
      .ok (l.foldl (fun m n => alSet m n n) mm, st) := by
  induction l with
  | nil => intro st mm _; rfl
  | cons id rest ih =>
    intro st mm h
    have hsome := h id (List.mem_cons_self _ _)
    cases hfind : st.find id with
    | none => rw [hfind] at hsome; exact absurd hsome (by simp)
    | some nd =>
      simp only [buildMirror, hfind, Bool.false_eq_true, if_false, List.foldl_cons]
      exact ih st (alSet mm id id) (fun i hi => h i (List.mem_cons_of_mem _ hi))

/-- A backward step with a mirror map that maps the current node to
itself equals a backward step with no mirror map at all. -/
theorem backStep_idMirror (reg : Reg) (agg : AggFun) (mm : List (Nat × Nat))
    (id : Nat) (hmm : alFind mm id = some id) (ps : PassState) :
    backStep reg agg mm ps id = backStep reg agg [] ps id := by
  have hsel : (if mm.isEmpty then some id else alFind mm id) = some id := by
    by_cases he : mm.isEmpty
    · simp [he]
    · simp [he, hmm]
  have hsel2 : (if ([] : List (Nat × Nat)).isEmpty then some id
      else alFind ([] : List (Nat × Nat)) id) = some id := by simp
  unfold backStep
  rw [hsel, hsel2]

/-- `foldlM` over `Except` respects pointwise-equal step functions. -/
theorem foldlM_congr_except {σ : Type} (f g : σ → Nat → Except String σ) (l : List Nat)
    (h : ∀ id ∈ l, ∀ s, f s id = g s id) :
    ∀ s, l.foldlM f s = l.foldlM g s := by
  induction l with
  | nil => intro s; rfl
  | cons a rest ih =>
    intro s
    simp only [List.foldlM_cons]
    rw [h a (List.mem_cons_self _ _) s]
    cases g s a with
    | error m => rfl
    | ok s2 =>
      exact ih (fun id hid s => h id (List.mem_cons_of_mem _ hid) s) s2

/-- **C7.**  Running the pass with a mirror predicate that is false for
every node yields exactly the same result — same output graph, same
arena, same ghost observations (in particular the same `calls` log: each
operator's gradient function receives the original node, as in the
no-mirror run, where line 113's `mirror_map.size() == 0` branch passes
the node itself) — as running it with no mirror policy supplied. -/
theorem c7_false_mirror_eq_no_mirror (reg : Reg) (cfg : GradConfig)
    (aggOpt : Option AggFun) (src : Store) :
    Gradient reg cfg aggOpt (some (fun _ => false)) src =
      Gradient reg cfg aggOpt none src := by
  rw [Gradient, Gradient]
  by_cases hlen : cfg.ys.length = cfg.ys_out_grad.length
  · rw [if_pos hlen, if_pos hlen]
    cases hseed : seedInit (initSlots src (DFSVisit src cfg.ys)) cfg.ys cfg.ys_out_grad with
    | error m => rfl
    | ok og1 =>
      rw [buildMirror_false _ _ _ (DFSVisit_found src cfg.ys)]
      have hfold := foldlM_congr_except
        (backStep reg (aggOpt.getD DefaultAggregateGradient)
          ((DFSVisit src cfg.ys).foldl (fun m n => alSet m n n) []))
        (backStep reg (aggOpt.getD DefaultAggregateGradient) [])
        (DFSVisit src cfg.ys).reverse
        (fun id hid ps => backStep_idMirror _ _ _ id
          (alFind_idMap _ [] id (Or.inl (List.mem_reverse.mp hid))) ps)
        ⟨src, og1, [], []⟩
      dsimp only
      rw [hfold]
  · rw [if_neg hlen, if_neg hlen]

/-! ### C10: pending-gradient slots are keyed by original nodes only -/

/-- The entry's node id, when present, lies below `b`. -/
def entryBelow (e : NodeEntry) (b : Nat) : Bool :=
  match e.node with
  | some j => decide (j < b)
  | none => true

/-- Every id the node references lies below `b`. -/
def nodeBelow (nd : Node) (b : Nat) : Bool :=
  nd.inputs.all (fun e => entryBelow e b) && nd.control_deps.all (fun j => decide (j < b))

/-- A well-formed source arena: every stored id and every referenced id
lies below the fresh counter. -/
def StoreWfB (s : Store) : Prop :=
  ∀ p ∈ s.nodes, p.1 < s.next ∧ nodeBelow p.2 s.next = true

/-- `s'` extends `s`: only nodes with fresh ids (at or above `s.next`)
were added, and the counter never moved backwards. -/
def StoreExtends (s s' : Store) : Prop :=
  (∃ pre, s'.nodes = pre ++ s.nodes ∧ ∀ p ∈ pre, s.next ≤ p.1) ∧ s.next ≤ s'.next

theorem entryBelow_spec (e : NodeEntry) (b : Nat) (h : entryBelow e b = true) :
    ∀ j, e.node = some j → j < b := by
  intro j hj
  rw [entryBelow, hj] at h
  simpa using h

theorem storeExtends_refl (s : Store) : StoreExtends s s :=
  ⟨⟨[], rfl, by simp⟩, le_rfl⟩

theorem storeExtends_trans {s t u : Store} (h1 : StoreExtends s t) (h2 : StoreExtends t u) :
    StoreExtends s u := by
  obtain ⟨⟨p1, hn1, hk1⟩, hx1⟩ := h1
  obtain ⟨⟨p2, hn2, hk2⟩, hx2⟩ := h2
  refine ⟨⟨p2 ++ p1, ?_, ?_⟩, le_trans hx1 hx2⟩
  · rw [hn2, hn1, List.append_assoc]
  · intro p hp
    rcases List.mem_append.mp hp with hp | hp
    · exact le_trans hx1 (hk2 p hp)
    · exact hk1 p hp

theorem storeExtends_create (s : Store) (nd : Node) : StoreExtends s (s.create nd).2 :=
  ⟨⟨[(s.next, nd)], rfl, by simp⟩, Nat.le_succ _⟩

/-- Extending a store does not change what an already-allocated id
dereferences to. -/
theorem find_of_extends {s s' : Store} (h : StoreExtends s s') (k : Nat) (hk : k < s.next) :
    s'.find k = s.find k := by
  obtain ⟨⟨pre, hn, hkeys⟩, _⟩ := h
  rw [Store.find, Store.find, hn]
  clear hn
  revert hkeys
  induction pre with
  | nil => intro _; rfl
  | cons p rest ih =>
    intro hkeys
    have hge := hkeys p (List.mem_cons_self _ _)
    have hne : p.1 ≠ k := by omega
    rw [List.cons_append, alFind, if_neg hne]
    exact ih (fun q hq => hkeys q (List.mem_cons_of_mem _ hq))

/-- An aggregation strategy that only adds nodes to the arena. -/
def AggExtends (agg : AggFun) : Prop := ∀ v s, StoreExtends s (agg v s).store

/-- The optional custom aggregator, when present, only adds nodes. -/
def AggExtendsOpt : Option AggFun → Prop
  | none => True
  | some a => AggExtends a

/-- Registered gradient functions only add nodes to the arena. -/
def RegExtends (reg : Reg) : Prop :=
  ∀ o f, reg o = some f → ∀ n g s, StoreExtends s (f n g s).2

theorem defaultAgg_extends : AggExtends DefaultAggregateGradient := by
  intro v s
  rcases v with _ | ⟨a, _ | ⟨b, t⟩⟩
  · exact storeExtends_create s _
  · exact storeExtends_refl s
  · exact storeExtends_create s _

theorem aggSlots_extends (agg : AggFun) (hagg : AggExtends agg) (id : Nat) :
    ∀ (slots : List GradEntry) (k : Nat) (st : Store) (cnt : CountMap),
    StoreExtends st (aggSlots agg id slots k st cnt).store := by
  intro slots
  induction slots with
  | nil => intro k st cnt; exact storeExtends_refl st
  | cons e rest ih =>
    intro k st cnt
    exact storeExtends_trans (hagg e.grads st) (ih (k + 1) _ _)

/-- All keys of a pending-gradient table lie below `b`. -/
def OgKeysBelow (og : OG) (b : Nat) : Prop := ∀ p ∈ og, p.1 < b

theorem scatterOne_keys (b : Nat) (og og' : OG) (e g : NodeEntry)
    (hone : scatterOne og e g = .ok og') (hog : OgKeysBelow og b)
    (he : ∀ j, e.node = some j → j < b) : OgKeysBelow og' b := by
  cases hn : e.node with
  | none =>
    simp only [scatterOne, hn] at hone
    exact Except.noConfusion hone
  | some nid =>
    simp only [scatterOne, hn] at hone
    by_cases hlt : e.index < ((alFind og nid).getD []).length
    · rw [dif_pos hlt] at hone
      have hok := Except.ok.inj hone
      rw [← hok]
      exact alSet_forall_keys og nid _ (fun k => k < b) hog (he nid hn)
    · rw [dif_neg hlt] at hone
      exact Except.noConfusion hone

theorem scatter_keys (b : Nat) :
    ∀ (es gs : List NodeEntry) (og og' : OG),
    scatter og es gs = .ok og' →
    OgKeysBelow og b →
    (∀ e ∈ es, ∀ j, e.node = some j → j < b) →
    OgKeysBelow og' b := by
  intro es
  induction es with
  | nil =>
    intro gs og og' hrun hog _
    cases gs <;> · simp [scatter] at hrun; rwa [← hrun]
  | cons e es ih =>
    intro gs og og' hrun hog hes
    cases gs with
    | nil => simp [scatter] at hrun
    | cons g gs =>
      cases hone : scatterOne og e g with
      | error m =>
        simp only [scatter, hone] at hrun
        exact Except.noConfusion hrun
      | ok og2 =>
        simp only [scatter, hone] at hrun
        exact ih gs og2 og' hrun
          (scatterOne_keys b og og2 e g hone hog (hes e (List.mem_cons_self _ _)))
          (fun e' he' => hes e' (List.mem_cons_of_mem _ he'))

theorem seedInit_keys (b : Nat) :
    ∀ (ys gs : List NodeEntry) (og og' : OG),
    seedInit og ys gs = .ok og' →
    OgKeysBelow og b →
    (∀ y ∈ ys, ∀ j, y.node = some j → j < b) →
    OgKeysBelow og' b := by
  intro ys
  induction ys with
  | nil =>
    intro gs og og' hrun hog _
    cases gs <;> · simp [seedInit] at hrun; rwa [← hrun]
  | cons y ys ih =>
    intro gs og og' hrun hog hys
    cases gs with
    | nil => simp [seedInit] at hrun
    | cons g gs =>
      cases hn : y.node with
      | none =>
        simp only [seedInit, hn] at hrun
        exact Except.noConfusion hrun
      | some yid =>
        simp only [seedInit, hn] at hrun
        cases hfind : alFind og yid with
        | none =>
          simp only [hfind] at hrun
          exact Except.noConfusion hrun
        | some slots =>
          simp only [hfind] at hrun
          by_cases hidx : y.index < slots.length
          · rw [dif_pos hidx] at hrun
            exact ih gs _ og' hrun
              (alSet_forall_keys og yid _ (fun k => k < b) hog
                (hys y (List.mem_cons_self _ _) yid hn))
              (fun y' hy' => hys y' (List.mem_cons_of_mem _ hy'))
          · rw [dif_neg hidx] at hrun
            exact Except.noConfusion hrun

theorem initSlots_keys (s : Store) (b : Nat) (topo : List Nat)
    (htopo : ∀ id ∈ topo, id < b) : OgKeysBelow (initSlots s topo) b := by
  suffices h : ∀ (l : List Nat) (og : OG), (∀ id ∈ l, id < b) → OgKeysBelow og b →
      OgKeysBelow (l.foldl (fun og id =>
        match s.find id with
        | some nd =>
          if (alFind og id).isSome then og
          else alSet og id (List.replicate nd.num_outputs {})
        | none => og) og) b by
    exact h topo [] htopo (by intro p hp; simp at hp)
  intro l
  induction l with
  | nil => intro og _ hog; exact hog
  | cons id rest ih =>
    intro og hl hog
    rw [List.foldl_cons]
    refine ih _ (fun i hi => hl i (List.mem_cons_of_mem _ hi)) ?_
    cases hf : s.find id with
    | none => simp only [hf]; exact hog
    | some nd =>
      simp only [hf]
      by_cases hsome : (alFind og id).isSome
      · rw [if_pos hsome]; exact hog
      · rw [if_neg hsome]
        exact alSet_forall_keys og id _ (fun k => k < b) hog (hl id (List.mem_cons_self _ _))

theorem DFSVisit_below (src : Store) (ys : List NodeEntry) (hwf : StoreWfB src) :
    ∀ id ∈ DFSVisit src ys, id < src.next := by
  intro id hid
  have h := DFSVisit_found src ys id hid
  rw [Option.isSome_iff_exists] at h
  obtain ⟨nd, hnd⟩ := h
  exact (hwf (id, nd) (alFind_some_mem _ _ _ hnd)).1

/-- The Mirror Planner only adds nodes to the arena. -/
theorem buildMirror_extends (pred : Node → Bool) :
    ∀ (l : List Nat) (st : Store) (mm mm' : List (Nat × Nat)) (st' : Store),
    buildMirror pred l st mm = .ok (mm', st') → StoreExtends st st' := by
  intro l
  induction l with
  | nil =>
    intro st mm mm' st' hrun
    simp [buildMirror] at hrun
    rw [← hrun.2]
    exact storeExtends_refl st
  | cons id rest ih =>
    intro st mm mm' st' hrun
    cases hf : st.find id with
    | none =>
      simp only [buildMirror, hf] at hrun
      exact Except.noConfusion hrun
    | some nd =>
      simp only [buildMirror, hf] at hrun
      by_cases hp : pred nd
      · rw [if_pos hp] at hrun
        cases hmi : mirrorInputs mm nd.inputs with
        | error m => simp only [hmi] at hrun; exact Except.noConfusion hrun
        | ok inputs2 =>
          simp only [hmi] at hrun
          cases hmd : mirrorDeps mm nd.control_deps with
          | error m => simp only [hmd] at hrun; exact Except.noConfusion hrun
          | ok deps2 =>
            simp only [hmd] at hrun
            exact storeExtends_trans (storeExtends_create st _) (ih _ _ _ _ hrun)
      · rw [if_neg hp] at hrun
        exact ih _ _ _ _ hrun

/-- One backward step keeps the arena an extension of the source and all
pending-slot keys below the source's fresh counter. -/
theorem backStep_inv (reg : Reg) (agg : AggFun) (mm : List (Nat × Nat)) (src : Store)
    (hwf : StoreWfB src) (hreg : RegExtends reg) (hagg : AggExtends agg)
    (id : Nat) (hid : id < src.next) (ps ps' : PassState)
    (hext : StoreExtends src ps.store) (hog : OgKeysBelow ps.og src.next)
    (hrun : backStep reg agg mm ps id = .ok ps') :
    StoreExtends src ps'.store ∧ OgKeysBelow ps'.og src.next := by
  cases hfind : ps.store.find id with
  | none =>
    simp only [backStep, hfind] at hrun
    exact Except.noConfusion hrun
  | some nd =>
    have hnd_src : Store.find src id = some nd := by
      rw [← find_of_extends hext id hid]
      exact hfind
    have hmem := alFind_some_mem _ _ _ hnd_src
    have hbelow : nodeBelow nd src.next = true := (hwf (id, nd) hmem).2
    have hinputs : ∀ e ∈ nd.inputs, entryBelow e src.next = true := by
      intro e he
      have := (Bool.and_eq_true _ _).mp hbelow
      exact List.all_eq_true.mp this.1 e he
    cases hop : nd.op with
    | none =>
      simp only [backStep, hfind, hop] at hrun
      rw [← Except.ok.inj hrun]
      exact ⟨hext, hog⟩
    | some opName =>
      simp only [backStep, hfind, hop] at hrun
      cases hslots : alFind ps.og id with
      | none => simp only [hslots] at hrun; exact Except.noConfusion hrun
      | some slots =>
        simp only [hslots] at hrun
        cases hregf : reg opName with
        | none => simp only [hregf] at hrun; exact Except.noConfusion hrun
        | some f =>
          simp only [hregf] at hrun
          cases hsel : (if mm.isEmpty then some id else alFind mm id) with
          | none => simp only [hsel] at hrun; exact Except.noConfusion hrun
          | some nodeArg =>
            simp only [hsel] at hrun
            split at hrun
            · next og2 hsc =>
              rw [← Except.ok.inj hrun]
              constructor
              · exact storeExtends_trans hext (storeExtends_trans
                  (aggSlots_extends agg hagg id slots 0 ps.store ps.count)
                  (hreg opName f hregf nodeArg _ _))
              · refine scatter_keys src.next nd.inputs _ _ og2 hsc ?_ ?_
                · exact alSet_forall_keys ps.og id _ (fun k => k < src.next) hog hid
                · intro e he j hj
                  exact entryBelow_spec e src.next (hinputs e he) j hj
            · next m hsc => exact Except.noConfusion hrun

/-- Threading an invariant through the backward traversal. -/
theorem foldlM_except_inv {σ : Type} (Inv : σ → Prop) (f : σ → Nat → Except String σ) :
    ∀ (l : List Nat),
    (∀ id ∈ l, ∀ s s', Inv s → f s id = .ok s' → Inv s') →
    ∀ s s', Inv s → l.foldlM f s = .ok s' → Inv s' := by
  intro l
  induction l with
  | nil =>
    intro _ s s' hs hrun
    simp only [List.foldlM_nil] at hrun
    rwa [show s = s' from Except.ok.inj hrun] at hs
  | cons a rest ih =>
    intro hstep s s' hs hrun
    rw [List.foldlM_cons] at hrun
    cases hfa : f s a with
    | error m => rw [hfa] at hrun; exact Except.noConfusion hrun
    | ok s2 =>
      rw [hfa] at hrun
      exact ih (fun id hid => hstep id (List.mem_cons_of_mem _ hid)) s2 s'
        (hstep a (List.mem_cons_self _ _) s s2 hs hfa) hrun

/-- The Output Assembler only writes slots keyed by requested entries. -/
theorem assemble_keys (b : Nat) (agg : AggFun) :
    ∀ (xs : List NodeEntry) (ps : PassState) (outs : List NodeEntry)
      (res : List NodeEntry × PassState),
    assemble agg xs ps outs = .ok res →
    OgKeysBelow ps.og b →
    (∀ e ∈ xs, ∀ j, e.node = some j → j < b) →
    OgKeysBelow res.2.og b := by
  intro xs
  induction xs with
  | nil =>
    intro ps outs res hrun hog _
    simp [assemble] at hrun
    rw [← hrun]
    exact hog
  | cons e es ih =>
    intro ps outs res hrun hog hxs
    cases hn : e.node with
    | none =>
      simp only [assemble, hn] at hrun
      exact Except.noConfusion hrun
    | some nid =>
      simp only [assemble, hn] at hrun
      cases hget : ((alFind ps.og nid).getD []).get? e.index with
      | none =>
        simp only [hget] at hrun
        exact Except.noConfusion hrun
      | some entry =>
        simp only [hget] at hrun
        refine ih _ _ res hrun ?_ (fun e' he' => hxs e' (List.mem_cons_of_mem _ he'))
        exact alSet_forall_keys _ nid _ (fun k => k < b) hog
          (hxs e (List.mem_cons_self _ _) nid hn)

/-- **C10.**  Pending-gradient slots are keyed exclusively by nodes of
the original source graph: after any completed run — with or without an
active mirror policy — every key of the final pending-gradient table
lies below the source arena's fresh counter, while every node the Mirror
Planner creates has an id at or above it; mirror copies therefore never
own or receive a pending-gradient contribution.  (The scatter loop uses
the original node's input list, line 115, and the mirrored substitute is
only handed to the gradient function, line 113.) -/
theorem c10_slots_keyed_by_original_nodes
    (reg : Reg) (cfg : GradConfig) (aggOpt : Option AggFun)
    (mirrorOpt : Option (Node → Bool)) (src : Store) (r : GradientResult)
    (hwf : StoreWfB src) (hreg : RegExtends reg) (hagg : AggExtendsOpt aggOpt)
    (hys : ∀ e ∈ cfg.ys, ∀ j, e.node = some j → j < src.next)
    (hxs : ∀ e ∈ cfg.xs, ∀ j, e.node = some j → j < src.next)
    (hrun : Gradient reg cfg aggOpt mirrorOpt src = .ok r) :
    ∀ p ∈ r.og, p.1 < src.next := by
  have haggx : AggExtends (aggOpt.getD DefaultAggregateGradient) := by
    cases aggOpt with
    | none => exact defaultAgg_extends
    | some a => exact hagg
  have htopo := DFSVisit_below src cfg.ys hwf
  unfold Gradient at hrun
  by_cases hlen : cfg.ys.length = cfg.ys_out_grad.length
  · rw [if_pos hlen] at hrun
    cases hseed : seedInit (initSlots src (DFSVisit src cfg.ys)) cfg.ys cfg.ys_out_grad with
    | error m => simp only [hseed] at hrun; exact Except.noConfusion hrun
    | ok og1 =>
      simp only [hseed] at hrun
      have hog1 : OgKeysBelow og1 src.next :=
        seedInit_keys src.next cfg.ys cfg.ys_out_grad _ og1 hseed
          (initSlots_keys src src.next _ htopo) hys
      have hmain : ∀ (mm : List (Nat × Nat)) (st0 : Store),
          StoreExtends src st0 →
          ((match List.foldlM (backStep reg (aggOpt.getD DefaultAggregateGradient) mm)
              (⟨st0, og1, [], []⟩ : PassState) (DFSVisit src cfg.ys).reverse with
            | .error m => Except.error m
            | .ok ps1 =>
              match assemble (aggOpt.getD DefaultAggregateGradient) cfg.xs ps1 [] with
              | .error m => Except.error m
              | .ok (outs, ps2) =>
                Except.ok ⟨outs, [], ps2.store, ps2.og, ps2.count, ps2.calls⟩) :
            Except String GradientResult) = .ok r →
          ∀ p ∈ r.og, p.1 < src.next := by
        intro mm st0 hext0 hrest
        cases hfold : List.foldlM (backStep reg (aggOpt.getD DefaultAggregateGradient) mm)
            (⟨st0, og1, [], []⟩ : PassState) (DFSVisit src cfg.ys).reverse with
        | error m => simp only [hfold] at hrest; exact Except.noConfusion hrest
        | ok ps1 =>
          simp only [hfold] at hrest
          have hinv1 : StoreExtends src ps1.store ∧ OgKeysBelow ps1.og src.next := by
            refine foldlM_except_inv
              (fun ps => StoreExtends src ps.store ∧ OgKeysBelow ps.og src.next)
              (backStep reg (aggOpt.getD DefaultAggregateGradient) mm)
              (DFSVisit src cfg.ys).reverse ?_ _ ps1 ⟨hext0, hog1⟩ hfold
            intro id hid ps ps' hinv hstep
            exact backStep_inv reg _ mm src hwf hreg haggx id
              (htopo id (List.mem_reverse.mp hid)) ps ps' hinv.1 hinv.2 hstep
          cases hasm : assemble (aggOpt.getD DefaultAggregateGradient) cfg.xs ps1 [] with
          | error m => simp only [hasm] at hrest; exact Except.noConfusion hrest
          | ok res =>
            obtain ⟨outs, ps2⟩ := res
            simp only [hasm] at hrest
            have hkeys := assemble_keys src.next _ cfg.xs ps1 [] (outs, ps2) hasm hinv1.2 hxs
            rw [← Except.ok.inj hrest]
            exact hkeys
      cases hmir : mirrorOpt with
      | none =>
        simp only [hmir] at hrun
        exact hmain [] src (storeExtends_refl src) hrun
      | some pred =>
        simp only [hmir] at hrun
        cases hbm : buildMirror pred (DFSVisit src cfg.ys) src [] with
        | error m => simp only [hbm] at hrun; exact Except.noConfusion hrun
        | ok pair =>
          obtain ⟨mm, st0⟩ := pair
          simp only [hbm] at hrun
          exact hmain mm st0 (buildMirror_extends pred _ src [] mm st0 hbm) hrun
  · rw [if_neg hlen] at hrun
    exact Except.noConfusion hrun

/-- Three-node chain for the C10 witness: variable 0 feeds `fm` (node 1)
which feeds `fy` (node 2); node 3 is the seed.  The mirror policy
selects the `fm` node. -/
def mirrorStore : Store :=
  ⟨[(0, varNode), (1, ⟨some "fm", "", [⟨some 0, 0, 0⟩], [], 1⟩),
    (2, ⟨some "fy", "", [⟨some 1, 0, 0⟩], [], 1⟩), (3, varNode)], 4⟩

def mirrorReg : Reg := fun o =>
  if o = "fm" then some passThrough1
  else if o = "fy" then some passThrough1
  else none

def mirrorCfg : GradConfig := ⟨[⟨some 2, 0, 0⟩], [⟨some 3, 0, 0⟩], [⟨some 0, 0, 0⟩]⟩

/-- The result of the mirror-active run on `mirrorStore`: the mirror copy
of node 1 got the fresh id 4 (and was the node handed to `fm`'s gradient
function, see `calls`), while every pending-slot key is an original id. -/
def mirrorResult : GradientResult :=
  ⟨[⟨some 3, 0, 0⟩], [],
   ⟨[(4, ⟨some "fm", "_mirror", [⟨some 0, 0, 0⟩], [], 1⟩),
     (0, varNode), (1, ⟨some "fm", "", [⟨some 0, 0, 0⟩], [], 1⟩),
     (2, ⟨some "fy", "", [⟨some 1, 0, 0⟩], [], 1⟩), (3, varNode)], 5⟩,
   [(0, [⟨⟨none, 0, 0⟩, [⟨none, 0, 0⟩]⟩]),
    (1, [⟨⟨some 3, 0, 0⟩, [⟨none, 0, 0⟩]⟩]),
    (2, [⟨⟨some 3, 0, 0⟩, [⟨none, 0, 0⟩]⟩])],
   [((2, 0), 1), ((1, 0), 1), ((0, 0), 1)],
   [2, 4]⟩

/-- Witness for C10: the theorem applied to the mirror-active run, all
hypotheses discharged concretely, instantiated at the slot of node 0 —
a member of the final pending table whose key is an original id (below
the source counter 4). -/
theorem c10_slots_keyed_by_original_nodes_witness :
    ((0, [(⟨⟨none, 0, 0⟩, [⟨none, 0, 0⟩]⟩ : GradEntry)]) : Nat × List GradEntry) ∈
      mirrorResult.og ∧ (0 : Nat) < 4 := by
  have h := c10_slots_keyed_by_original_nodes mirrorReg mirrorCfg none
    (some (fun nd => nd.op == some "fm")) mirrorStore mirrorResult
    (by unfold StoreWfB; decide)
    (by
      intro o f hf n g s
      by_cases h1 : o = "fm"
      · simp [mirrorReg, h1] at hf
        rw [← hf]
        exact storeExtends_refl s
      · by_cases h2 : o = "fy"
        · simp [mirrorReg, h1, h2] at hf
          rw [← hf]
          exact storeExtends_refl s
        · simp [mirrorReg, h1, h2] at hf)
    trivial
    (by
      intro e he j hj
      simp [mirrorCfg] at he
      rw [he] at hj
      simp at hj
      show j < 4
      omega)
    (by
      intro e he j hj
      simp [mirrorCfg] at he
      rw [he] at hj
      simp at hj
      show j < 4
      omega)
    rfl
  exact ⟨by decide,
    h ((0, [(⟨⟨none, 0, 0⟩, [⟨none, 0, 0⟩]⟩ : GradEntry)]) : Nat × List GradEntry)
      (by decide)⟩

/-! ### C8: determinism — a second invocation differs only by where
fresh nodes are allocated, and its result is the first result with the
fresh ids renamed -/

/-- Renaming of node identities between two invocations: ids of the
source arena (below `b`) are fixed, fresh ids are shifted by `d`. -/
def shiftId (b d i : Nat) : Nat := if i < b then i else i + d

def rnE (b d : Nat) (e : NodeEntry) : NodeEntry :=
  ⟨e.node.map (shiftId b d), e.index, e.version⟩

def rnNode (b d : Nat) (nd : Node) : Node :=
  ⟨nd.op, nd.name, nd.inputs.map (rnE b d), nd.control_deps.map (shiftId b d), nd.num_outputs⟩

def rnStore (b d : Nat) (s : Store) : Store :=
  ⟨s.nodes.map (fun p => (shiftId b d p.1, rnNode b d p.2)), shiftId b d s.next⟩

def rnGE (b d : Nat) (ge : GradEntry) : GradEntry :=
  ⟨rnE b d ge.sum, ge.grads.map (rnE b d)⟩

def rnOG (b d : Nat) (og : OG) : OG :=
  og.map (fun p => (shiftId b d p.1, p.2.map (rnGE b d)))

def rnMir (b d : Nat) (m : List (Nat × Nat)) : List (Nat × Nat) :=
  m.map (fun p => (shiftId b d p.1, shiftId b d p.2))

def rnPS (b d : Nat) (ps : PassState) : PassState :=
  ⟨rnStore b d ps.store, rnOG b d ps.og, ps.count, ps.calls.map (shiftId b d)⟩

def rnRes (b d : Nat) (r : GradientResult) : GradientResult :=
  ⟨r.outputs.map (rnE b d), r.retAttrs, rnStore b d r.store, rnOG b d r.og, r.count,
   r.calls.map (shiftId b d)⟩

def rnExc (b d : Nat) : Except String GradientResult → Except String GradientResult
  | .error m => .error m
  | .ok r => .ok (rnRes b d r)

/-- Projection: the operator kinds of every allocated node, in
allocation order — the "operator-kind shape" of a run's arena. -/
def resOps (r : Except String GradientResult) : Option (List (Option String)) :=
  match r with
  | .ok x => some (x.store.nodes.map (fun p => p.2.op))
  | .error _ => none

theorem shiftId_below {b d i : Nat} (h : i < b) : shiftId b d i = i := by
  simp [shiftId, h]

theorem shiftId_ge {b d i : Nat} (h : b ≤ i) : shiftId b d i = i + d := by
  have : ¬(i < b) := by omega
  simp [shiftId, this]

theorem shiftId_inj (b d : Nat) : ∀ i j, shiftId b d i = shiftId b d j → i = j := by
  intro i j
  unfold shiftId
  split <;> split <;> omega

/-- Generic: lookup in a key-and-value-renamed association list. -/
theorem alFind_mapRename {α β : Type} (ρ : Nat → Nat) (hinj : ∀ i j, ρ i = ρ j → i = j)
    (F : α → β) (m : List (Nat × α)) (k : Nat) :
    alFind (m.map (fun p => (ρ p.1, F p.2))) (ρ k) = (alFind m k).map F := by
  induction m with
  | nil => rfl
  | cons p rest ih =>
    by_cases hp : p.1 = k
    · simp [alFind, hp]
    · have hne : ρ p.1 ≠ ρ k := fun hc => hp (hinj _ _ hc)
      simp [alFind, hp, hne, ih]

/-- Generic: insert into a key-and-value-renamed association list. -/
theorem alSet_mapRename {α β : Type} (ρ : Nat → Nat) (hinj : ∀ i j, ρ i = ρ j → i = j)
    (F : α → β) (m : List (Nat × α)) (k : Nat) (v : α) :
    alSet (m.map (fun p => (ρ p.1, F p.2))) (ρ k) (F v) =
      (alSet m k v).map (fun p => (ρ p.1, F p.2)) := by
  induction m with
  | nil => rfl
  | cons p rest ih =>
    by_cases hp : p.1 = k
    · simp [alSet, hp]
    · have hne : ρ p.1 ≠ ρ k := fun hc => hp (hinj _ _ hc)
      simp [alSet, hp, hne, ih]

theorem alFind_rnOG (b d : Nat) (og : OG) (k : Nat) :
    alFind (rnOG b d og) (shiftId b d k) = (alFind og k).map (List.map (rnGE b d)) :=
  alFind_mapRename (shiftId b d) (shiftId_inj b d) (List.map (rnGE b d)) og k

theorem alSet_rnOG (b d : Nat) (og : OG) (k : Nat) (v : List GradEntry) :
    alSet (rnOG b d og) (shiftId b d k) (v.map (rnGE b d)) = rnOG b d (alSet og k v) :=
  alSet_mapRename (shiftId b d) (shiftId_inj b d) (List.map (rnGE b d)) og k v

theorem alFind_rnMir (b d : Nat) (m : List (Nat × Nat)) (k : Nat) :
    alFind (rnMir b d m) (shiftId b d k) = (alFind m k).map (shiftId b d) :=
  alFind_mapRename (shiftId b d) (shiftId_inj b d) (shiftId b d) m k

theorem alSet_rnMir (b d : Nat) (m : List (Nat × Nat)) (k v : Nat) :
    alSet (rnMir b d m) (shiftId b d k) (shiftId b d v) = rnMir b d (alSet m k v) :=
  alSet_mapRename (shiftId b d) (shiftId_inj b d) (shiftId b d) m k v

theorem find_rnStore (b d : Nat) (s : Store) (i : Nat) :
    Store.find (rnStore b d s) (shiftId b d i) = (Store.find s i).map (rnNode b d) :=
  alFind_mapRename (shiftId b d) (shiftId_inj b d) (rnNode b d) s.nodes i

theorem create_rn (b d : Nat) (s : Store) (nd : Node) (h : b ≤ s.next) :
    Store.create (rnStore b d s) (rnNode b d nd) =
      (shiftId b d (Store.create s nd).1, rnStore b d (Store.create s nd).2) := by
  have h1 : shiftId b d s.next = s.next + d := shiftId_ge h
  have h2 : shiftId b d (s.next + 1) = s.next + 1 + d := shiftId_ge (by omega)
  simp [Store.create, rnStore, h1, h2]
  omega

/-- Pointwise-trivial maps are the identity. -/
theorem map_self_of_forall {α : Type} (l : List α) (f : α → α) (h : ∀ a ∈ l, f a = a) :
    l.map f = l := by
  induction l with
  | nil => rfl
  | cons a rest ih =>
    rw [List.map_cons, h a (List.mem_cons_self _ _),
      ih (fun x hx => h x (List.mem_cons_of_mem _ hx))]

/-- Entities whose every id lies below `b` are fixed by the renaming. -/
theorem rnE_fix {b : Nat} (d : Nat) {e : NodeEntry} (h : entryBelow e b = true) :
    rnE b d e = e := by
  obtain ⟨n, i, v⟩ := e
  cases hn : n with
  | none => simp [rnE, hn]
  | some j =>
    rw [hn] at h
    rw [entryBelow] at h
    simp at h
    simp [rnE, shiftId_below h]

theorem rnNode_fix {b : Nat} (d : Nat) {nd : Node} (h : nodeBelow nd b = true) :
    rnNode b d nd = nd := by
  obtain ⟨h1, h2⟩ := (Bool.and_eq_true _ _).mp h
  rw [rnNode]
  have hi : nd.inputs.map (rnE b d) = nd.inputs :=
    map_self_of_forall _ _ (fun e he => rnE_fix d (List.all_eq_true.mp h1 e he))
  have hc : nd.control_deps.map (shiftId b d) = nd.control_deps :=
    map_self_of_forall _ _ (fun j hj => shiftId_below (by
      have := List.all_eq_true.mp h2 j hj
      simpa using this))
  rw [hi, hc]

theorem rnStore_fix (d : Nat) (s : Store) (hwf : StoreWfB s) :
    rnStore s.next d s = ⟨s.nodes, s.next + d⟩ := by
  rw [rnStore]
  have hn : s.nodes.map (fun p => (shiftId s.next d p.1, rnNode s.next d p.2)) = s.nodes :=
    map_self_of_forall _ _ (fun p hp => by
      obtain ⟨h1, h2⟩ := hwf p hp
      rw [shiftId_below h1, rnNode_fix d h2])
  rw [hn, shiftId_ge le_rfl]

/-- The registry is equivariant under the renaming: gradient functions
behave the same up to renaming of node ids, and never move the fresh
counter below `b`.  (Two process runs hand the same well-behaved C++
gradient functions differently-allocated fresh nodes; a function that
branched on addresses would make the pass nondeterministic.) -/
def RegEquiv (b d : Nat) (reg : Reg) : Prop :=
  ∀ o f, reg o = some f → ∀ n g s,
    b ≤ s.next →
    (f (shiftId b d n) (g.map (rnE b d)) (rnStore b d s) =
        ((f n g s).1.map (rnE b d), rnStore b d (f n g s).2) ∧
      b ≤ (f n g s).2.next)

/-- The aggregation strategy is equivariant under the renaming. -/
def AggEquiv (b d : Nat) (agg : AggFun) : Prop :=
  ∀ v s, b ≤ s.next →
    (agg (v.map (rnE b d)) (rnStore b d s) =
        ⟨rnE b d (agg v s).result, (agg v s).residual.map (rnE b d),
          rnStore b d (agg v s).store⟩ ∧
      b ≤ (agg v s).store.next)

def AggEquivOpt (b d : Nat) : Option AggFun → Prop
  | none => True
  | some a => AggEquiv b d a

/-- The default aggregator is equivariant: it only builds `__zero__` and
`__ewise_sum__` nodes out of its argument list. -/
theorem defaultAgg_equiv (b d : Nat) : AggEquiv b d DefaultAggregateGradient := by
  intro v s hnext
  have h1 : shiftId b d s.next = s.next + d := shiftId_ge hnext
  have h2 : shiftId b d (s.next + 1) = s.next + 1 + d := shiftId_ge (Nat.le_succ_of_le hnext)
  rcases v with _ | ⟨a, _ | ⟨a2, t⟩⟩
  · constructor
    · simp only [List.map_nil, DefaultAggregateGradient]
      simp [Store.create, rnStore, rnE, rnNode, h1, h2]
      omega
    · simp only [DefaultAggregateGradient, Store.create]
      omega
  · constructor
    · simp only [List.map_cons, List.map_nil, DefaultAggregateGradient]
      simp [rnGE, rnE]
    · simpa only [DefaultAggregateGradient] using hnext
  · constructor
    · simp only [List.map_cons, DefaultAggregateGradient]
      simp [Store.create, rnStore, rnE, rnNode, h1, h2]
      omega
    · simp only [DefaultAggregateGradient, Store.create]
      omega

/-- Slot-by-slot aggregation commutes with the renaming. -/
theorem aggSlots_rn (b d : Nat) (agg : AggFun) (hagg : AggEquiv b d agg) (id : Nat) :
    ∀ (slots : List GradEntry) (k : Nat) (st : Store) (cnt : CountMap),
    b ≤ st.next →
    (aggSlots agg id (slots.map (rnGE b d)) k (rnStore b d st) cnt =
        ⟨(aggSlots agg id slots k st cnt).slots.map (rnGE b d),
         (aggSlots agg id slots k st cnt).sums.map (rnE b d),
         rnStore b d (aggSlots agg id slots k st cnt).store,
         (aggSlots agg id slots k st cnt).count⟩ ∧
      b ≤ (aggSlots agg id slots k st cnt).store.next) := by
  intro slots
  induction slots with
  | nil => intro k st cnt hnext; exact ⟨rfl, hnext⟩
  | cons e rest ih =>
    intro k st cnt hnext
    have ha := hagg e.grads st hnext
    have hrest := ih (k + 1) (agg e.grads st).store (cntBump cnt (id, k)) ha.2
    refine ⟨?_, ?_⟩
    · simp only [List.map_cons, aggSlots]
      have hgr : (rnGE b d e).grads = e.grads.map (rnE b d) := rfl
      rw [hgr, ha.1]
      dsimp only
      rw [hrest.1]
      simp [rnGE]
    · simp only [aggSlots]
      exact hrest.2

/-- One scatter step commutes with the renaming. -/
theorem scatterOne_rn (b d : Nat) (og : OG) (e g : NodeEntry) :
    scatterOne (rnOG b d og) (rnE b d e) (rnE b d g) =
      (match scatterOne og e g with
       | .error m => .error m
       | .ok og2 => .ok (rnOG b d og2)) := by
  cases hn : e.node with
  | none =>
    have hn2 : (rnE b d e).node = none := by simp [rnE, hn]
    simp only [scatterOne, hn, hn2]
  | some nid =>
    have hn2 : (rnE b d e).node = some (shiftId b d nid) := by simp [rnE, hn]
    simp only [scatterOne, hn, hn2]
    have hfind : alFind (rnOG b d og) (shiftId b d nid) =
        (alFind og nid).map (List.map (rnGE b d)) :=
      alFind_mapRename (shiftId b d) (shiftId_inj b d) (List.map (rnGE b d)) og nid
    rw [hfind]
    have hslots : ((alFind og nid).map (List.map (rnGE b d))).getD [] =
        ((alFind og nid).getD []).map (rnGE b d) := by
      cases alFind og nid <;> rfl
    rw [hslots]
    have hidx : (rnE b d e).index = e.index := rfl
    rw [hidx]
    by_cases hlt : e.index < ((alFind og nid).getD []).length
    · have hlt2 : e.index < (((alFind og nid).getD []).map (rnGE b d)).length := by
        simpa using hlt
      rw [dif_pos hlt2, dif_pos hlt]
      have hget : (((alFind og nid).getD []).map (rnGE b d)).get ⟨e.index, hlt2⟩ =
          rnGE b d (((alFind og nid).getD []).get ⟨e.index, hlt⟩) := by
        simp [List.get_map]
      rw [hget]
      have hset : (((alFind og nid).getD []).map (rnGE b d)).set e.index
          (rnGE b d { ((alFind og nid).getD []).get ⟨e.index, hlt⟩ with
            grads := (((alFind og nid).getD []).get ⟨e.index, hlt⟩).grads ++ [g] }) =
          (((alFind og nid).getD []).set e.index
            { ((alFind og nid).getD []).get ⟨e.index, hlt⟩ with
              grads := (((alFind og nid).getD []).get ⟨e.index, hlt⟩).grads ++ [g] }).map
            (rnGE b d) := by
        rw [List.map_set]
      have hnew : { rnGE b d (((alFind og nid).getD []).get ⟨e.index, hlt⟩) with
          grads := (rnGE b d (((alFind og nid).getD []).get ⟨e.index, hlt⟩)).grads ++
            [rnE b d g] } =
          rnGE b d { ((alFind og nid).getD []).get ⟨e.index, hlt⟩ with
            grads := (((alFind og nid).getD []).get ⟨e.index, hlt⟩).grads ++ [g] } := by
        simp [rnGE]
      rw [hnew, hset]
      rw [alSet_rnOG]
    · have hlt2 : ¬ e.index < (((alFind og nid).getD []).map (rnGE b d)).length := by
        simpa using hlt
      rw [dif_neg hlt2, dif_neg hlt]

/-- The scatter loop commutes with the renaming. -/
theorem scatter_rn (b d : Nat) :
    ∀ (es gs : List NodeEntry) (og : OG),
    scatter (rnOG b d og) (es.map (rnE b d)) (gs.map (rnE b d)) =
      (match scatter og es gs with
       | .error m => .error m
       | .ok og2 => .ok (rnOG b d og2)) := by
  intro es
  induction es with
  | nil => intro gs og; cases gs <;> rfl
  | cons e es ih =>
    intro gs og
    cases gs with
    | nil => rfl
    | cons g gs =>
      simp only [List.map_cons, scatter]
      rw [scatterOne_rn b d og e g]
      cases hone : scatterOne og e g with
      | error m => rfl
      | ok og2 => exact ih gs og2

/-- A backward step never moves the fresh counter below `b`. -/
theorem backStep_next (b d : Nat) (reg : Reg) (agg : AggFun)
    (hreg : RegEquiv b d reg) (hagg : AggEquiv b d agg) (mm : List (Nat × Nat))
    (id : Nat) (ps ps' : PassState) (hnext : b ≤ ps.store.next)
    (hrun : backStep reg agg mm ps id = .ok ps') : b ≤ ps'.store.next := by
  cases hfind : ps.store.find id with
  | none =>
    simp only [backStep, hfind] at hrun
    exact Except.noConfusion hrun
  | some nd =>
    cases hop : nd.op with
    | none =>
      simp only [backStep, hfind, hop] at hrun
      rw [← Except.ok.inj hrun]
      exact hnext
    | some opName =>
      simp only [backStep, hfind, hop] at hrun
      cases hslots : alFind ps.og id with
      | none => simp only [hslots] at hrun; exact Except.noConfusion hrun
      | some slots =>
        simp only [hslots] at hrun
        cases hregf : reg opName with
        | none => simp only [hregf] at hrun; exact Except.noConfusion hrun
        | some f =>
          simp only [hregf] at hrun
          cases hsel : (if mm.isEmpty then some id else alFind mm id) with
          | none => simp only [hsel] at hrun; exact Except.noConfusion hrun
          | some nodeArg =>
            simp only [hsel] at hrun
            split at hrun
            · next og2 hsc =>
              rw [← Except.ok.inj hrun]
              exact (hreg opName f hregf nodeArg
                (aggSlots agg id slots 0 ps.store ps.count).sums
                (aggSlots agg id slots 0 ps.store ps.count).store
                (aggSlots_rn b d agg hagg id slots 0 ps.store ps.count hnext).2).2
            · next m hsc => exact Except.noConfusion hrun

/-- One backward step commutes with the renaming of fresh node ids. -/
theorem backStep_rn (b d : Nat) (reg : Reg) (agg : AggFun)
    (hreg : RegEquiv b d reg) (hagg : AggEquiv b d agg)
    (mm : List (Nat × Nat)) (id : Nat) (hid : id < b)
    (ps : PassState) (hnext : b ≤ ps.store.next) :
    backStep reg agg (rnMir b d mm) (rnPS b d ps) id =
      (match backStep reg agg mm ps id with
       | .error m => .error m
       | .ok ps' => .ok (rnPS b d ps')) := by
  obtain ⟨st, og, cnt, cl⟩ := ps
  change b ≤ st.next at hnext
  have hidfix : shiftId b d id = id := shiftId_below hid
  have hfindeq : Store.find (rnStore b d st) id = (Store.find st id).map (rnNode b d) := by
    conv_lhs => rw [← hidfix]
    exact find_rnStore b d st id
  have hogeq : alFind (rnOG b d og) id = (alFind og id).map (List.map (rnGE b d)) := by
    conv_lhs => rw [← hidfix]
    exact alFind_rnOG b d og id
  have hmmeq : alFind (rnMir b d mm) id = (alFind mm id).map (shiftId b d) := by
    conv_lhs => rw [← hidfix]
    exact alFind_mapRename (shiftId b d) (shiftId_inj b d) (shiftId b d) mm id
  have hmmE : (rnMir b d mm).isEmpty = mm.isEmpty := by
    cases mm <;> rfl
  cases hfind : Store.find st id with
  | none =>
    rw [hfind] at hfindeq
    simp only [rnPS, backStep, hfindeq, hfind, Option.map_none']
  | some nd =>
    rw [hfind] at hfindeq
    cases hop : nd.op with
    | none =>
      have hop2 : (rnNode b d nd).op = nd.op := rfl
      simp only [rnPS, backStep, hfindeq, hfind, Option.map_some', hop2, hop]
    | some opName =>
      have hop2 : (rnNode b d nd).op = nd.op := rfl
      simp only [rnPS, backStep, hfindeq, hfind, Option.map_some', hop2, hop, hogeq]
      cases hslots : alFind og id with
      | none => simp only [hslots, Option.map_none']
      | some slots =>
        simp only [hslots, Option.map_some']
        cases hregf : reg opName with
        | none => simp only [hregf]
        | some f =>
          simp only [hregf]
          have haggs := aggSlots_rn b d agg hagg id slots 0 st cnt hnext
          rw [haggs.1]
          have hsel2 : (if (rnMir b d mm).isEmpty then some id else alFind (rnMir b d mm) id) =
              (if mm.isEmpty then some id else alFind mm id).map (shiftId b d) := by
            by_cases he : mm.isEmpty
            · simp [hmmE, he, hidfix]
            · simp [hmmE, he, hmmeq]
          rw [hsel2]
          cases hsel : (if mm.isEmpty then some id else alFind mm id) with
          | none => simp only [Option.map_none']
          | some nodeArg =>
            simp only [Option.map_some']
            have hf := hreg opName f hregf nodeArg
              (aggSlots agg id slots 0 st cnt).sums
              (aggSlots agg id slots 0 st cnt).store haggs.2
            rw [hf.1]
            have hinp : (rnNode b d nd).inputs = nd.inputs.map (rnE b d) := rfl
            rw [hinp]
            have hogset := alSet_rnOG b d og id (aggSlots agg id slots 0 st cnt).slots
            rw [hidfix] at hogset
            rw [hogset]
            rw [scatter_rn b d nd.inputs
              (f nodeArg (aggSlots agg id slots 0 st cnt).sums
                (aggSlots agg id slots 0 st cnt).store).1
              (alSet og id (aggSlots agg id slots 0 st cnt).slots)]
            cases hsc : scatter (alSet og id (aggSlots agg id slots 0 st cnt).slots) nd.inputs
                (f nodeArg (aggSlots agg id slots 0 st cnt).sums
                  (aggSlots agg id slots 0 st cnt).store).1 with
            | error m => simp only [hsc]
            | ok og2 =>
              simp only [hsc, rnPS]
              simp [List.map_append, hidfix]

/-- The whole backward traversal commutes with the renaming. -/
theorem foldlM_backStep_rn (b d : Nat) (reg : Reg) (agg : AggFun)
    (hreg : RegEquiv b d reg) (hagg : AggEquiv b d agg) (mm : List (Nat × Nat)) :
    ∀ (l : List Nat), (∀ id ∈ l, id < b) →
    ∀ (ps : PassState), b ≤ ps.store.next →
    List.foldlM (backStep reg agg (rnMir b d mm)) (rnPS b d ps) l =
      (match List.foldlM (backStep reg agg mm) ps l with
       | .error m => .error m
       | .ok ps1 => .ok (rnPS b d ps1)) := by
  intro l
  induction l with
  | nil => intro _ ps _; rfl
  | cons a rest ih =>
    intro hl ps hnext
    rw [List.foldlM_cons, List.foldlM_cons]
    rw [backStep_rn b d reg agg hreg hagg mm a (hl a (List.mem_cons_self _ _)) ps hnext]
    cases hstep : backStep reg agg mm ps a with
    | error m => rfl
    | ok ps' =>
      exact ih (fun i hi => hl i (List.mem_cons_of_mem _ hi)) ps'
        (backStep_next b d reg agg hreg hagg mm a ps ps' hnext hstep)

/-- Rewiring mirror inputs commutes with the renaming (the looked-up ids
are original, below `b`). -/
theorem mirrorInputs_rn (b d : Nat) (mm : List (Nat × Nat)) :
    ∀ (es : List NodeEntry), (∀ e ∈ es, entryBelow e b = true) →
    mirrorInputs (rnMir b d mm) es =
      (match mirrorInputs mm es with
       | .error m => .error m
       | .ok l => .ok (l.map (rnE b d))) := by
  intro es
  induction es with
  | nil => intro _; rfl
  | cons e rest ih =>
    intro hb
    cases hn : e.node with
    | none => simp only [mirrorInputs, hn]
    | some j =>
      have hj : j < b := entryBelow_spec e b (hb e (List.mem_cons_self _ _)) j hn
      have hjfix : shiftId b d j = j := shiftId_below hj
      have hmm2 : alFind (rnMir b d mm) j = (alFind mm j).map (shiftId b d) := by
        conv_lhs => rw [← hjfix]
        exact alFind_mapRename (shiftId b d) (shiftId_inj b d) (shiftId b d) mm j
      simp only [mirrorInputs, hn, hmm2]
      cases hf : alFind mm j with
      | none => simp only [Option.map_none']
      | some j2 =>
        simp only [Option.map_some']
        rw [ih (fun x hx => hb x (List.mem_cons_of_mem _ hx))]
        cases hrest : mirrorInputs mm rest with
        | error m => rfl
        | ok l => simp [rnE]

/-- Rewiring mirror control dependencies commutes with the renaming. -/
theorem mirrorDeps_rn (b d : Nat) (mm : List (Nat × Nat)) :
    ∀ (js : List Nat), (∀ j ∈ js, j < b) →
    mirrorDeps (rnMir b d mm) js =
      (match mirrorDeps mm js with
       | .error m => .error m
       | .ok l => .ok (l.map (shiftId b d))) := by
  intro js
  induction js with
  | nil => intro _; rfl
  | cons j rest ih =>
    intro hb
    have hj : j < b := hb j (List.mem_cons_self _ _)
    have hjfix : shiftId b d j = j := shiftId_below hj
    have hmm2 : alFind (rnMir b d mm) j = (alFind mm j).map (shiftId b d) := by
      conv_lhs => rw [← hjfix]
      exact alFind_mapRename (shiftId b d) (shiftId_inj b d) (shiftId b d) mm j
    simp only [mirrorDeps, hmm2]
    cases hf : alFind mm j with
    | none => simp only [Option.map_none']
    | some j2 =>
      simp only [Option.map_some']
      rw [ih (fun x hx => hb x (List.mem_cons_of_mem _ hx))]
      cases hrest : mirrorDeps mm rest with
      | error m => rfl
      | ok l => rfl

/-- The Mirror Planner commutes with the renaming: on the renamed store
it produces the renamed mirror map and the renamed extended arena. -/
theorem buildMirror_rn (b d : Nat) (pred : Node → Bool) (src : Store)
    (hwf : StoreWfB src) (hb : b = src.next) :
    ∀ (l : List Nat) (st : Store) (mm : List (Nat × Nat)),
    (∀ id ∈ l, id < b) → StoreExtends src st → b ≤ st.next →
    buildMirror pred l (rnStore b d st) (rnMir b d mm) =
      (match buildMirror pred l st mm with
       | .error m => .error m
       | .ok (mm', st') => .ok (rnMir b d mm', rnStore b d st')) := by
  intro l
  induction l with
  | nil => intro st mm _ _ _; rfl
  | cons id rest ih =>
    intro st mm hl hext hnext
    have hid : id < b := hl id (List.mem_cons_self _ _)
    have hidfix : shiftId b d id = id := shiftId_below hid
    have hfind2 : Store.find (rnStore b d st) id = (Store.find st id).map (rnNode b d) := by
      conv_lhs => rw [← hidfix]
      exact find_rnStore b d st id
    have hsrc : Store.find st id = Store.find src id := find_of_extends hext id (by omega)
    cases hf : Store.find src id with
    | none =>
      rw [hf] at hsrc
      rw [hsrc, Option.map_none'] at hfind2
      simp only [buildMirror, hsrc, hfind2]
    | some nd =>
      rw [hf] at hsrc
      rw [hsrc, Option.map_some'] at hfind2
      have hmemwf := hwf (id, nd) (alFind_some_mem _ _ _ hf)
      have hndb : nodeBelow nd b = true := by rw [hb]; exact hmemwf.2
      have hfix : rnNode b d nd = nd := rnNode_fix d hndb
      rw [hfix] at hfind2
      simp only [buildMirror, hsrc, hfind2]
      obtain ⟨hinpb, hdepb⟩ := (Bool.and_eq_true _ _).mp hndb
      by_cases hp : pred nd
      · rw [if_pos hp, if_pos hp]
        rw [mirrorInputs_rn b d mm nd.inputs (List.all_eq_true.mp hinpb)]
        cases hmi : mirrorInputs mm nd.inputs with
        | error m => simp only [hmi]
        | ok inputs2 =>
          simp only [hmi]
          rw [mirrorDeps_rn b d mm nd.control_deps (fun j hj => by
            have := List.all_eq_true.mp hdepb j hj
            simpa using this)]
          cases hmd : mirrorDeps mm nd.control_deps with
          | error m => simp only [hmd]
          | ok deps2 =>
            simp only [hmd]
            have hnode :
                ({ nd with
                    name := nd.name ++ "_mirror",
                    inputs := inputs2.map (rnE b d),
                    control_deps := deps2.map (shiftId b d) } : Node) =
                  rnNode b d
                    ({ nd with
                        name := nd.name ++ "_mirror",
                        inputs := inputs2,
                        control_deps := deps2 } : Node) := rfl
            rw [hnode]
            rw [create_rn b d st _ hnext]
            have hset := alSet_rnMir b d mm id
              (Store.create st
                ({ nd with
                    name := nd.name ++ "_mirror",
                    inputs := inputs2,
                    control_deps := deps2 } : Node)).1
            rw [hidfix] at hset
            rw [hset]
            exact ih _ _ (fun i hi => hl i (List.mem_cons_of_mem _ hi))
              (storeExtends_trans hext (storeExtends_create st _))
              (by simp [Store.create]; omega)
      · rw [if_neg hp, if_neg hp]
        have hset := alSet_rnMir b d mm id id
        rw [hidfix] at hset
        rw [hset]
        exact ih _ _ (fun i hi => hl i (List.mem_cons_of_mem _ hi)) hext hnext

/-- The Output Assembler commutes with the renaming (requested entries
reference original nodes, below `b`). -/
theorem assemble_rn (b d : Nat) (agg : AggFun) (hagg : AggEquiv b d agg) :
    ∀ (xs : List NodeEntry) (ps : PassState) (outs : List NodeEntry),
    (∀ e ∈ xs, ∀ j, e.node = some j → j < b) →
    b ≤ ps.store.next →
    assemble agg xs (rnPS b d ps) (outs.map (rnE b d)) =
      (match assemble agg xs ps outs with
       | .error m => .error m
       | .ok (o, ps2) => .ok (o.map (rnE b d), rnPS b d ps2)) := by
  intro xs
  induction xs with
  | nil => intro ps outs _ _; rfl
  | cons e es ih =>
    intro ps outs hbx hnext
    obtain ⟨st, og, cnt, cl⟩ := ps
    change b ≤ st.next at hnext
    cases hn : e.node with
    | none => simp only [rnPS, assemble, hn]
    | some nid =>
      have hnid : nid < b := hbx e (List.mem_cons_self _ _) nid hn
      have hnidfix : shiftId b d nid = nid := shiftId_below hnid
      have hogeq : alFind (rnOG b d og) nid = (alFind og nid).map (List.map (rnGE b d)) := by
        conv_lhs => rw [← hnidfix]
        exact alFind_rnOG b d og nid
      simp only [rnPS, assemble, hn]
      rw [hogeq]
      have hgetD : ((alFind og nid).map (List.map (rnGE b d))).getD [] =
          ((alFind og nid).getD []).map (rnGE b d) := by
        cases alFind og nid <;> rfl
      rw [hgetD]
      have hq : (((alFind og nid).getD []).map (rnGE b d)).get? e.index =
          (((alFind og nid).getD []).get? e.index).map (rnGE b d) := by
        rw [List.get?_map]
      rw [hq]
      cases hget : ((alFind og nid).getD []).get? e.index with
      | none => simp only [Option.map_none']
      | some entry =>
        simp only [Option.map_some']
        cases hsum : entry.sum.node with
        | none =>
          have hsum2 : (rnGE b d entry).sum.node = none := by simp [rnGE, rnE, hsum]
          rw [hsum2]
          simp only [Option.isNone_none, eq_self_iff_true, if_true]
          have hgr : (rnGE b d entry).grads = entry.grads.map (rnE b d) := rfl
          rw [hgr, (hagg entry.grads st hnext).1]
          have h3 := ih
            ⟨(agg entry.grads st).store,
             alSet og nid (((alFind og nid).getD []).set e.index
               { sum := { (agg entry.grads st).result with node := none },
                 grads := (agg entry.grads st).residual }),
             cntBump cnt (nid, e.index), cl⟩
            (outs ++ [(agg entry.grads st).result])
            (fun e2 he2 j hj => hbx e2 (List.mem_cons_of_mem _ he2) j hj)
            (hagg entry.grads st hnext).2
          refine Eq.trans ?_ h3
          have hoset := alSet_rnOG b d og nid (((alFind og nid).getD []).set e.index
            { sum := { (agg entry.grads st).result with node := none },
              grads := (agg entry.grads st).residual })
          rw [hnidfix] at hoset
          simp only [rnPS, ← hoset, List.map_set, List.map_append, rnGE, rnE,
            Option.map_none', Option.map_some', List.map_cons, List.map_nil]
        | some v =>
          have hsum2 : (rnGE b d entry).sum.node = some (shiftId b d v) := by
            simp [rnGE, rnE, hsum]
          rw [hsum2]
          simp only [Option.isNone_some, Bool.false_eq_true, if_false]
          have h3 := ih
            ⟨st, alSet og nid (((alFind og nid).getD []).set e.index
              { entry with sum := { entry.sum with node := none } }),
             cnt, cl⟩
            (outs ++ [entry.sum])
            (fun e2 he2 j hj => hbx e2 (List.mem_cons_of_mem _ he2) j hj)
            hnext
          refine Eq.trans ?_ h3
          have hoset := alSet_rnOG b d og nid (((alFind og nid).getD []).set e.index
            { entry with sum := { entry.sum with node := none } })
          rw [hnidfix] at hoset
          simp only [rnPS, ← hoset, List.map_set, List.map_append, rnGE, rnE, hsum,
            Option.map_none', Option.map_some', List.map_cons, List.map_nil]

/-- The DFS reads only the arena's contents, never the fresh counter. -/
theorem dfsNode_nodes_eq (s t : Store) (h : s.nodes = t.nodes) :
    ∀ (fuel id : Nat) (order : List Nat), dfsNode s fuel id order = dfsNode t fuel id order := by
  intro fuel
  induction fuel with
  | zero => intro id order; rfl
  | succ fuel ih =>
    intro id order
    rw [dfsNode, dfsNode]
    have hfind : s.find id = t.find id := by rw [Store.find, Store.find, h]
    rw [hfind]
    have hfun1 : (fun acc (e : NodeEntry) =>
        match e.node with
        | some j => dfsNode s fuel j acc
        | none => acc) = (fun acc (e : NodeEntry) =>
        match e.node with
        | some j => dfsNode t fuel j acc
        | none => acc) := by
      funext acc e
      cases e.node <;> simp [ih]
    have hfun2 : (fun acc j => dfsNode s fuel j acc) =
        (fun acc j => dfsNode t fuel j acc) := by
      funext acc j
      exact ih j acc
    rw [hfun1, hfun2]

theorem DFSVisit_nodes_eq (s t : Store) (h : s.nodes = t.nodes) (ys : List NodeEntry) :
    DFSVisit s ys = DFSVisit t ys := by
  rw [DFSVisit, DFSVisit, h]
  have hfun : (fun acc (e : NodeEntry) =>
      match e.node with
      | some j => dfsNode s (t.nodes.length + 1) j acc
      | none => acc) = (fun acc (e : NodeEntry) =>
      match e.node with
      | some j => dfsNode t (t.nodes.length + 1) j acc
      | none => acc) := by
    funext acc e
    cases e.node <;> simp [dfsNode_nodes_eq s t h]
  rw [hfun]

theorem initSlots_nodes_eq (s t : Store) (h : s.nodes = t.nodes) (topo : List Nat) :
    initSlots s topo = initSlots t topo := by
  rw [initSlots, initSlots]
  have hfun : (fun (og : OG) id =>
      match s.find id with
      | some nd =>
        if (alFind og id).isSome then og
        else alSet og id (List.replicate nd.num_outputs {})
      | none => og) = (fun (og : OG) id =>
      match t.find id with
      | some nd =>
        if (alFind og id).isSome then og
        else alSet og id (List.replicate nd.num_outputs {})
      | none => og) := by
    funext og id
    have hfind : s.find id = t.find id := by rw [Store.find, Store.find, h]
    rw [hfind]
  rw [hfun]

/-- Generic: `alSet` preserves an arbitrary invariant of the pairs. -/
theorem alSet_forall {κ α : Type} [DecidableEq κ] (m : List (κ × α)) (k : κ) (v : α)
    (P : κ × α → Prop) (hm : ∀ p ∈ m, P p) (hk : P (k, v)) : ∀ p ∈ alSet m k v, P p := by
  induction m with
  | nil =>
    intro p hp
    simp [alSet] at hp
    rw [hp]
    exact hk
  | cons q rest ih =>
    intro p hp
    by_cases hq : q.1 = k
    · simp [alSet, hq] at hp
      rcases hp with hp | hp
      · rw [hp]; exact hk
      · exact hm p (List.mem_cons_of_mem _ hp)
    · simp [alSet, hq] at hp
      rcases hp with hp | hp
      · exact hm p (by simp [hp])
      · exact ih (fun q hq => hm q (List.mem_cons_of_mem _ hq)) p hp

/-- All ids in a grad entry lie below `b`. -/
def geBelowB (ge : GradEntry) (b : Nat) : Bool :=
  entryBelow ge.sum b && ge.grads.all (fun e => entryBelow e b)

/-- All keys and stored entries of the table lie below `b`. -/
def OgBelow (og : OG) (b : Nat) : Prop :=
  ∀ p ∈ og, p.1 < b ∧ p.2.all (fun ge => geBelowB ge b) = true

theorem rnGE_fix {b : Nat} (d : Nat) {ge : GradEntry} (h : geBelowB ge b = true) :
    rnGE b d ge = ge := by
  obtain ⟨h1, h2⟩ := (Bool.and_eq_true _ _).mp h
  rw [rnGE, rnE_fix d h1,
    map_self_of_forall _ _ (fun e he => rnE_fix d (List.all_eq_true.mp h2 e he))]

theorem rnOG_fix (d : Nat) {b : Nat} {og : OG} (h : OgBelow og b) : rnOG b d og = og := by
  rw [rnOG]
  exact map_self_of_forall _ _ (fun p hp => by
    obtain ⟨h1, h2⟩ := h p hp
    rw [shiftId_below h1,
      map_self_of_forall _ _ (fun ge hge => rnGE_fix d (List.all_eq_true.mp h2 ge hge))])

/-- The freshly allocated slot table only holds default entries with
original keys. -/
theorem initSlots_below (s : Store) (b : Nat) (topo : List Nat)
    (htopo : ∀ id ∈ topo, id < b) : OgBelow (initSlots s topo) b := by
  suffices h : ∀ (l : List Nat) (og : OG), (∀ id ∈ l, id < b) → OgBelow og b →
      OgBelow (l.foldl (fun og id =>
        match s.find id with
        | some nd =>
          if (alFind og id).isSome then og
          else alSet og id (List.replicate nd.num_outputs {})
        | none => og) og) b by
    exact h topo [] htopo (by intro p hp; simp at hp)
  intro l
  induction l with
  | nil => intro og _ hog; exact hog
  | cons id rest ih =>
    intro og hl hog
    rw [List.foldl_cons]
    refine ih _ (fun i hi => hl i (List.mem_cons_of_mem _ hi)) ?_
    cases hf : s.find id with
    | none => simp only [hf]; exact hog
    | some nd =>
      simp only [hf]
      by_cases hsome : (alFind og id).isSome
      · rw [if_pos hsome]; exact hog
      · rw [if_neg hsome]
        refine alSet_forall og id _ _ hog ?_
        refine ⟨hl id (List.mem_cons_self _ _), ?_⟩
        rw [List.all_eq_true]
        intro ge hge
        rw [List.eq_of_mem_replicate hge]
        rfl

/-- Seed initialization keeps the table below `b` when all seeds are. -/
theorem seedInit_below (b : Nat) :
    ∀ (ys gs : List NodeEntry) (og og' : OG),
    seedInit og ys gs = .ok og' →
    OgBelow og b →
    (∀ y ∈ ys, ∀ j, y.node = some j → j < b) →
    (∀ g ∈ gs, entryBelow g b = true) →
    OgBelow og' b := by
  intro ys
  induction ys with
  | nil =>
    intro gs og og' hrun hog _ _
    cases gs <;> · simp [seedInit] at hrun; rwa [← hrun]
  | cons y ys ih =>
    intro gs og og' hrun hog hys hgs
    cases gs with
    | nil => simp [seedInit] at hrun
    | cons g gs =>
      cases hn : y.node with
      | none =>
        simp only [seedInit, hn] at hrun
        exact Except.noConfusion hrun
      | some yid =>
        simp only [seedInit, hn] at hrun
        cases hfind : alFind og yid with
        | none =>
          simp only [hfind] at hrun
          exact Except.noConfusion hrun
        | some slots =>
          simp only [hfind] at hrun
          by_cases hidx : y.index < slots.length
          · rw [dif_pos hidx] at hrun
            refine ih gs _ og' hrun ?_
              (fun y2 hy2 j hj => hys y2 (List.mem_cons_of_mem _ hy2) j hj)
              (fun g2 hg2 => hgs g2 (List.mem_cons_of_mem _ hg2))
            have hslotsb := (hog (yid, slots) (alFind_some_mem _ _ _ hfind)).2
            refine alSet_forall og yid _ _ hog ?_
            refine ⟨hys y (List.mem_cons_self _ _) yid hn, ?_⟩
            rw [List.all_eq_true]
            intro ge hge
            rcases List.mem_or_eq_of_mem_set hge with hge | hge
            · exact List.all_eq_true.mp hslotsb ge hge
            · rw [hge]
              have hold := List.all_eq_true.mp hslotsb (slots.get ⟨y.index, hidx⟩)
                (slots.get_mem _ _)
              rw [geBelowB, Bool.and_eq_true] at hold ⊢
              refine ⟨hold.1, ?_⟩
              simp [hgs g (List.mem_cons_self _ _)]
          · rw [dif_neg hidx] at hrun
            exact Except.noConfusion hrun

/-- Renaming the fresh ids does not change the operator-kind shape. -/
theorem resOps_rnExc (b d : Nat) (r : Except String GradientResult) :
    resOps (rnExc b d r) = resOps r := by
  cases r with
  | error m => rfl
  | ok x =>
    simp only [resOps, rnExc, rnRes, rnStore, List.map_map]
    congr 1

/-- **C8.**  Determinism up to node identity: a second invocation of the
pass on the same source graph and attribute bundle differs from the
first only in where fresh nodes are allocated (modelled by starting the
allocator at `src.next + d` instead of `src.next`).  Its result is
exactly the first result with every fresh id shifted by `d` — an
isomorphism on node identities that fixes the source graph — so the two
output graphs have identical operator-kind shape (second conjunct).
Requires the well-formedness of the source arena and that the externally
supplied gradient functions (and custom aggregator, when present) are
themselves deterministic up to the renaming. -/
theorem c8_determinism_up_to_renaming
    (reg : Reg) (cfg : GradConfig) (aggOpt : Option AggFun)
    (mirrorOpt : Option (Node → Bool)) (src : Store) (d : Nat)
    (hwf : StoreWfB src)
    (hys : ∀ e ∈ cfg.ys, ∀ j, e.node = some j → j < src.next)
    (hseeds : ∀ g ∈ cfg.ys_out_grad, entryBelow g src.next = true)
    (hxs : ∀ e ∈ cfg.xs, ∀ j, e.node = some j → j < src.next)
    (hreg : RegEquiv src.next d reg)
    (hagg : AggEquivOpt src.next d aggOpt) :
    Gradient reg cfg aggOpt mirrorOpt ⟨src.nodes, src.next + d⟩ =
      rnExc src.next d (Gradient reg cfg aggOpt mirrorOpt src) ∧
    resOps (Gradient reg cfg aggOpt mirrorOpt ⟨src.nodes, src.next + d⟩) =
      resOps (Gradient reg cfg aggOpt mirrorOpt src) := by
  have haggx : AggEquiv src.next d (aggOpt.getD DefaultAggregateGradient) := by
    cases aggOpt with
    | none => exact defaultAgg_equiv _ _
    | some a => exact hagg
  have hmain : Gradient reg cfg aggOpt mirrorOpt ⟨src.nodes, src.next + d⟩ =
      rnExc src.next d (Gradient reg cfg aggOpt mirrorOpt src) := by
    have hsrc2 : (⟨src.nodes, src.next + d⟩ : Store) = rnStore src.next d src :=
      (rnStore_fix d src hwf).symm
    have hnodes : (rnStore src.next d src).nodes = src.nodes := by
      rw [rnStore_fix d src hwf]
    have htopo : DFSVisit (rnStore src.next d src) cfg.ys = DFSVisit src cfg.ys :=
      DFSVisit_nodes_eq _ _ hnodes cfg.ys
    have hinit : initSlots (rnStore src.next d src) (DFSVisit src cfg.ys) =
        initSlots src (DFSVisit src cfg.ys) :=
      initSlots_nodes_eq _ _ hnodes _
    have htlow : ∀ id ∈ DFSVisit src cfg.ys, id < src.next := DFSVisit_below src cfg.ys hwf
    rw [hsrc2, Gradient.eq_def, Gradient.eq_def]
    simp only [htopo, hinit]
    by_cases hlen : cfg.ys.length = cfg.ys_out_grad.length
    · rw [if_pos hlen, if_pos hlen]
      cases hseed : seedInit (initSlots src (DFSVisit src cfg.ys)) cfg.ys cfg.ys_out_grad with
      | error m => simp only [hseed]; rfl
      | ok og1 =>
        simp only [hseed]
        have hog1b : OgBelow og1 src.next :=
          seedInit_below src.next cfg.ys cfg.ys_out_grad _ og1 hseed
            (initSlots_below src src.next _ htlow) hys hseeds
        have hfix1 : rnOG src.next d og1 = og1 := rnOG_fix d hog1b
        have hrest : ∀ (mm2 mm : List (Nat × Nat)) (st0 : Store),
            mm2 = rnMir src.next d mm → src.next ≤ st0.next →
            ((match List.foldlM
                (backStep reg (aggOpt.getD DefaultAggregateGradient) mm2)
                (⟨rnStore src.next d st0, og1, [], []⟩ : PassState)
                (DFSVisit src cfg.ys).reverse with
              | .error m => Except.error m
              | .ok ps1 =>
                match assemble (aggOpt.getD DefaultAggregateGradient) cfg.xs ps1 [] with
                | .error m => Except.error m
                | .ok (outs, ps2) =>
                  Except.ok ⟨outs, [], ps2.store, ps2.og, ps2.count, ps2.calls⟩) :
              Except String GradientResult) =
            rnExc src.next d
              (match List.foldlM
                  (backStep reg (aggOpt.getD DefaultAggregateGradient) mm)
                  (⟨st0, og1, [], []⟩ : PassState) (DFSVisit src cfg.ys).reverse with
                | .error m => Except.error m
                | .ok ps1 =>
                  match assemble (aggOpt.getD DefaultAggregateGradient) cfg.xs ps1 [] with
                  | .error m => Except.error m
                  | .ok (outs, ps2) =>
                    Except.ok ⟨outs, [], ps2.store, ps2.og, ps2.count, ps2.calls⟩) := by
          intro mm2 mm st0 hmm2 hnext0
          subst hmm2
          have hstate : (⟨rnStore src.next d st0, og1, [], []⟩ : PassState) =
              rnPS src.next d ⟨st0, og1, [], []⟩ := by
            simp [rnPS, hfix1]
          rw [hstate]
          rw [foldlM_backStep_rn src.next d reg _ hreg haggx mm
            (DFSVisit src cfg.ys).reverse
            (fun id hid => htlow id (List.mem_reverse.mp hid)) ⟨st0, og1, [], []⟩ hnext0]
          cases hfold : List.foldlM (backStep reg (aggOpt.getD DefaultAggregateGradient) mm)
              (⟨st0, og1, [], []⟩ : PassState) (DFSVisit src cfg.ys).reverse with
          | error m => simp only [hfold]; rfl
          | ok ps1 =>
            simp only [hfold]
            have hnext1 : src.next ≤ ps1.store.next :=
              foldlM_except_inv (fun ps => src.next ≤ ps.store.next) _ _
                (fun id hid s s' hs hstep =>
                  backStep_next src.next d reg _ hreg haggx mm id s s' hs hstep)
                _ ps1 hnext0 hfold
            have h5 := assemble_rn src.next d _ haggx cfg.xs ps1 [] hxs hnext1
            simp only [List.map_nil] at h5
            rw [h5]
            cases hasm : assemble (aggOpt.getD DefaultAggregateGradient) cfg.xs ps1 [] with
            | error m => simp only [hasm]; rfl
            | ok res =>
              obtain ⟨outs, ps2⟩ := res
              simp only [hasm]
              rfl
        cases hmir : mirrorOpt with
        | none =>
          simp only [hmir]
          exact hrest [] [] src rfl le_rfl
        | some pred =>
          simp only [hmir]
          have h6 := buildMirror_rn src.next d pred src hwf rfl (DFSVisit src cfg.ys)
            src [] htlow (storeExtends_refl src) le_rfl
          simp only [show rnMir src.next d ([] : List (Nat × Nat)) = [] from rfl] at h6
          rw [h6]
          cases hbm : buildMirror pred (DFSVisit src cfg.ys) src [] with
          | error m => simp only [hbm]; rfl
          | ok pair =>
            obtain ⟨mm, st0⟩ := pair
            simp only [hbm]
            exact hrest (rnMir src.next d mm) mm st0 rfl
              (buildMirror_extends pred _ src [] mm st0 hbm).2
    · rw [if_neg hlen, if_neg hlen]
      rfl
  refine ⟨hmain, ?_⟩
  rw [hmain, resOps_rnExc]

/-- Two-variable arena for the C8 witness: node 0 is the requested
output and input, node 1 the seed; the registry is empty (no operator
nodes are differentiated). -/
def detStore : Store := ⟨[(0, varNode), (1, varNode)], 2⟩

def detCfg : GradConfig := ⟨[⟨some 0, 0, 0⟩], [⟨some 1, 0, 0⟩], [⟨some 0, 0, 0⟩]⟩

/-- Witness for C8: the theorem applied to a concrete run with the
allocator displaced by 3, every hypothesis discharged concretely. -/
theorem c8_determinism_up_to_renaming_witness :
    Gradient (fun _ => none) detCfg none none ⟨detStore.nodes, 5⟩ =
      rnExc 2 3 (Gradient (fun _ => none) detCfg none none detStore) ∧
    resOps (Gradient (fun _ => none) detCfg none none ⟨detStore.nodes, 5⟩) =
      resOps (Gradient (fun _ => none) detCfg none none detStore) := by
  have h := c8_determinism_up_to_renaming (fun _ => none) detCfg none none detStore 3
    (by unfold StoreWfB; decide)
    (by
      intro e he j hj
      simp [detCfg] at he
      rw [he] at hj
      simp at hj
      show j < 2
      omega)
    (by
      intro g hg
      simp [detCfg] at hg
      rw [hg]
      decide)
    (by
      intro e he j hj
      simp [detCfg] at he
      rw [he] at hj
      simp at hj
      show j < 2
      omega)
    (fun o f hf => Option.noConfusion hf)
    trivial
  exact h

end NNVM
